import Mathlib

/-!
Shallow embedding of the freehand-stroke classifier from
`src/utils/geometry.ts` (the scored multi-candidate version of `recognize`
and its helpers, lines 1-258), over exact real arithmetic.

Points are pairs of reals, `Math.hypot` is the Euclidean norm, and every
JavaScript `x || 1` divisor guard is embedded as `if x = 0 then 1 else x`.
-/

open scoped Classical

noncomputable section

namespace Geometry

/-- A 2D point, mirroring the `[number, number]` tuples of the source. -/
abbrev Point := ℝ × ℝ

/-- Default point used for (always in-range) indexed list access. -/
def pt0 : Point := (0, 0)

/-- `Math.hypot(a, b)` of the source. -/
def hypot (a b : ℝ) : ℝ := Real.sqrt (a ^ 2 + b ^ 2)

/-- Euclidean distance between two points (`Math.hypot` of the deltas). -/
def euclid (p q : Point) : ℝ := hypot (p.1 - q.1) (p.2 - q.2)

/-- The `DrawnShape` tagged union of the source. -/
inductive DrawnShape where
  | rect (x y w h : ℝ) (color : String)
  | circle (x y r : ℝ) (color : String)
  | triangle (points : List Point) (color : String)
  | free (points : List Point) (color : String)
deriving DecidableEq

/-- Result record of `bbox`. -/
structure BBox where
  minX : ℝ
  minY : ℝ
  maxX : ℝ
  maxY : ℝ
  w : ℝ
  h : ℝ

/-- `Math.min(...xs)` over a list (the source only applies it to non-empty
strokes; on `[]` we pick 0 rather than JavaScript's `Infinity`). -/
def listMin : List ℝ → ℝ
  | [] => 0
  | x :: xs => xs.foldl min x

/-- `Math.max(...xs)` over a list (0 on `[]`, see `listMin`). -/
def listMax : List ℝ → ℝ
  | [] => 0
  | x :: xs => xs.foldl max x

/-- `bbox` of the source. -/
def bbox (points : List Point) : BBox :=
  let xs := points.map Prod.fst
  let ys := points.map Prod.snd
  let minX := listMin xs
  let maxX := listMax xs
  let minY := listMin ys
  let maxY := listMax ys
  ⟨minX, minY, maxX, maxY, maxX - minX, maxY - minY⟩

/-- The `reduce` in `pathClosed` that accumulates the traversed length:
term `i` adds the distance from `points[i]` to `points[i-1]` (nothing for
`i = 0`). -/
def pathClosedPerim (points : List Point) : ℝ :=
  points.enum.foldl
    (fun acc ip =>
      acc + if ip.1 = 0 then 0 else euclid ip.2 (points.getD (ip.1 - 1) pt0))
    0

/-- `pathClosed` of the source: `< 3` points is never closed, otherwise the
first/last distance must beat `max(10, perim * 0.05)`. -/
def pathClosed (points : List Point) : Bool :=
  if points.length < 3 then false
  else
    decide (hypot (points.headI.1 - points.getLastI.1)
        (points.headI.2 - points.getLastI.2)
      < max 10 (pathClosedPerim points * 0.05))

/-- `ensureClosed` of the source: append the starting point unless the
endpoints are already within `minClosePx` of each other. -/
def ensureClosed (points : List Point) (minClosePx : ℝ) : List Point :=
  if points.length < 2 then points
  else if hypot (points.headI.1 - points.getLastI.1)
      (points.headI.2 - points.getLastI.2) ≤ minClosePx then points
  else points ++ [points.headI]

/-- `polygonPerimeter` of the source (loop `i = 1 .. length-1`). -/
def polygonPerimeter (points : List Point) : ℝ :=
  (List.range' 1 (points.length - 1)).foldl
    (fun p i =>
      p + hypot ((points.getD i pt0).1 - (points.getD (i - 1) pt0).1)
        ((points.getD i pt0).2 - (points.getD (i - 1) pt0).2))
    0

/-- The signed shoelace sum accumulated by `polygonArea` (`j` is the cyclic
predecessor of `i`). -/
def polygonShoelace (points : List Point) : ℝ :=
  (List.range points.length).foldl
    (fun a i =>
      let j := if i = 0 then points.length - 1 else i - 1
      a + ((points.getD j pt0).1 * (points.getD i pt0).2
        - (points.getD i pt0).1 * (points.getD j pt0).2))
    0

/-- `polygonArea` of the source: absolute shoelace sum halved. -/
def polygonArea (points : List Point) : ℝ := |polygonShoelace points| / 2

/-- Numerator of the point-to-line distance used by `rdpDistance`/`rdp`. -/
def perpNum (s e p : Point) : ℝ :=
  |(e.2 - s.2) * p.1 - (e.1 - s.1) * p.2 + e.1 * s.2 - e.2 * s.1|

/-- Denominator of the point-to-line distance, with the `|| 1` guard. -/
def perpDen (s e : Point) : ℝ :=
  if hypot (e.2 - s.2) (e.1 - s.1) = 0 then 1 else hypot (e.2 - s.2) (e.1 - s.1)

/-- Perpendicular distance from `p` to the (guarded) line through `s`,`e`. -/
def perpDist (s e p : Point) : ℝ := perpNum s e p / perpDen s e

/-- The interior points `points[1] .. points[length-2]` scanned by
`rdpDistance`. -/
def interiorPts (points : List Point) : List Point :=
  (points.drop 1).dropLast

/-- The interior points paired with their indices, as scanned by `rdp`. -/
def interiorIdx (points : List Point) : List (ℕ × Point) :=
  (points.enum.drop 1).dropLast

/-- `rdpDistance` of the source: maximum interior perpendicular distance
(0 for fewer than 3 points; the running maximum starts at 0). -/
def rdpDistance (points : List Point) : ℝ :=
  if points.length < 3 then 0
  else
    (interiorPts points).foldl
      (fun m p => max m (perpDist points.headI points.getLastI p)) 0

/-- The `(maxD, idx)` scan at the top of `rdp` (both initialised to `-1`,
updated on strict improvement). -/
def rdpScan (points : List Point) : ℝ × ℤ :=
  (interiorIdx points).foldl
    (fun acc ip =>
      if perpDist points.headI points.getLastI ip.2 > acc.1
      then (perpDist points.headI points.getLastI ip.2, (ip.1 : ℤ))
      else acc)
    (-1, -1)

lemma interiorIdx_length (points : List Point) :
    (interiorIdx points).length = points.length - 1 - 1 := by
  simp [interiorIdx]

lemma interiorIdx_mem_bounds {points : List Point} {ip : ℕ × Point}
    (h : ip ∈ interiorIdx points) :
    1 ≤ ip.1 ∧ ip.1 + 2 ≤ points.length := by
  obtain ⟨⟨k, hk⟩, rfl⟩ := List.mem_iff_get.mp h
  have hk' := hk
  rw [interiorIdx_length] at hk'
  have hlen : points.length = points.enum.length := by simp
  have h1 : (interiorIdx points).get ⟨k, hk⟩ = points.enum.get
      ⟨k + 1, by omega⟩ := by
    simp only [interiorIdx, List.get_eq_getElem]
    rw [List.getElem_dropLast, List.getElem_drop]
    simp [Nat.add_comm]
  have h2 : points.enum.get ⟨k + 1, by omega⟩ =
      (k + 1, points.get ⟨k + 1, by omega⟩) := by
    simp only [List.get_eq_getElem]
    rw [List.getElem_enum]
  rw [h1, h2]
  constructor
  · omega
  · omega

/-- The index found by the `rdp` scan is `-1` or an interior index. -/
lemma rdpScan_snd_bounds (points : List Point) :
    (rdpScan points).2 = -1 ∨
      (1 ≤ (rdpScan points).2 ∧ (rdpScan points).2 + 2 ≤ (points.length : ℤ)) := by
  have haux : ∀ (l : List (ℕ × Point)) (acc : ℝ × ℤ),
      (∀ ip ∈ l, 1 ≤ ip.1 ∧ ip.1 + 2 ≤ points.length) →
      (acc.2 = -1 ∨ (1 ≤ acc.2 ∧ acc.2 + 2 ≤ (points.length : ℤ))) →
      ((l.foldl (fun acc ip =>
          if perpDist points.headI points.getLastI ip.2 > acc.1
          then (perpDist points.headI points.getLastI ip.2, (ip.1 : ℤ))
          else acc) acc).2 = -1 ∨
        (1 ≤ (l.foldl (fun acc ip =>
          if perpDist points.headI points.getLastI ip.2 > acc.1
          then (perpDist points.headI points.getLastI ip.2, (ip.1 : ℤ))
          else acc) acc).2 ∧
          (l.foldl (fun acc ip =>
          if perpDist points.headI points.getLastI ip.2 > acc.1
          then (perpDist points.headI points.getLastI ip.2, (ip.1 : ℤ))
          else acc) acc).2 + 2 ≤ (points.length : ℤ))) := by
    intro l
    induction l with
    | nil => intro acc _ hacc; simpa using hacc
    | cons a t ih =>
      intro acc hmem hacc
      simp only [List.foldl_cons]
      apply ih
      · intro ip hip; exact hmem ip (List.mem_cons_of_mem a hip)
      · by_cases hgt : perpDist points.headI points.getLastI a.2 > acc.1
        · simp only [if_pos hgt]
          right
          have := hmem a (List.mem_cons_self a t)
          constructor
          · exact_mod_cast this.1
          · exact_mod_cast this.2
        · simpa [if_neg hgt] using hacc
  exact haux (interiorIdx points) (-1, -1)
    (fun ip hip => interiorIdx_mem_bounds hip) (Or.inl rfl)

/-- `rdp` of the source: recursive Ramer-Douglas-Peucker simplification. -/
def rdp (points : List Point) (epsilon : ℝ) : List Point :=
  if h2 : points.length ≤ 2 then points
  else
    let maxD := (rdpScan points).1
    let idx := (rdpScan points).2
    if rdpDistance points < epsilon then [points.headI, points.getLastI]
    else if hbr : maxD > epsilon ∧ idx > 0 then
      have hidx := rdpScan_snd_bounds points
      (rdp (points.take (idx.toNat + 1)) epsilon).dropLast
        ++ rdp (points.drop idx.toNat) epsilon
    else [points.headI, points.getLastI]
termination_by points.length
decreasing_by
  · rcases rdpScan_snd_bounds points with h | ⟨ha, hb⟩
    · exact absurd h (by omega)
    · simp only [List.length_take]
      omega
  · rcases rdpScan_snd_bounds points with h | ⟨ha, hb⟩
    · exact absurd h (by omega)
    · simp only [List.length_drop]
      omega

/-- `toDeg` inside `countCorners`. -/
def toDeg (rad : ℝ) : ℝ := rad * 180 / Real.pi

/-- One iteration of the `countCorners` loop: 1 if vertex `i` of `poly` is a
corner (interior angle strictly between `thresh` and `180 - thresh` degrees),
0 otherwise.  Magnitudes carry the `|| 1` guard and the cosine is clamped to
`[-1, 1]` before `acos`. -/
def cornerAt (poly : List Point) (angleThreshDeg : ℝ) (i : ℕ) : ℕ :=
  let n := poly.length
  let p0 := poly.getD ((i + n - 1) % n) pt0
  let p1 := poly.getD i pt0
  let p2 := poly.getD ((i + 1) % n) pt0
  let v1x := p0.1 - p1.1
  let v1y := p0.2 - p1.2
  let v2x := p2.1 - p1.1
  let v2y := p2.2 - p1.2
  let dot := v1x * v2x + v1y * v2y
  let mag1 := if hypot v1x v1y = 0 then 1 else hypot v1x v1y
  let mag2 := if hypot v2x v2y = 0 then 1 else hypot v2x v2y
  let ang := Real.arccos (max (-1) (min 1 (dot / (mag1 * mag2))))
  let deg := toDeg ang
  if deg < 180 - angleThreshDeg ∧ deg > angleThreshDeg then 1 else 0

/-- `countCorners` of the source. -/
def countCorners (poly : List Point) (angleThreshDeg : ℝ) : ℕ :=
  if poly.length < 3 then 0
  else
    (List.range poly.length).foldl
      (fun corners i => corners + cornerAt poly angleThreshDeg i) 0

/-- The record returned by a successful `fitCircle`. -/
structure CircleFit where
  cx : ℝ
  cy : ℝ
  r : ℝ
  stdRel : ℝ

/-- Mean of the x coordinates (`meanX` in `fitCircle`). -/
def meanX (points : List Point) : ℝ :=
  (points.map Prod.fst).sum / points.length

/-- Mean of the y coordinates (`meanY` in `fitCircle`). -/
def meanY (points : List Point) : ℝ :=
  (points.map Prod.snd).sum / points.length

/-- The centered moment sums `Suu, Suv, Svv, Suuu, Suvv, Svvv, Suuv` of
`fitCircle`, as functions of the exponent pair: `momentSum a b` is the sum of
`u^a * v^b` over the centered points. -/
def momentSum (points : List Point) (a b : ℕ) : ℝ :=
  (points.map (fun p =>
    (p.1 - meanX points) ^ a * (p.2 - meanY points) ^ b)).sum

/-- The normal-equations denominator `den = 2 * (Suu * Svv - Suv * Suv)` of
`fitCircle`. -/
def fitDen (points : List Point) : ℝ :=
  2 * (momentSum points 2 0 * momentSum points 0 2
    - momentSum points 1 1 * momentSum points 1 1)

/-- The fitted center of `fitCircle` (valid when `fitDen` is not small). -/
def fitCenter (points : List Point) : Point :=
  let Suu := momentSum points 2 0
  let Suv := momentSum points 1 1
  let Svv := momentSum points 0 2
  let Suuu := momentSum points 3 0
  let Suvv := momentSum points 1 2
  let Svvv := momentSum points 0 3
  let Suuv := momentSum points 2 1
  let uc := (Svv * (Suuu + Suvv) - Suv * (Svvv + Suuv)) / fitDen points
  let vc := (Suu * (Svvv + Suuv) - Suv * (Suuu + Suvv)) / fitDen points
  (meanX points + uc, meanY points + vc)

/-- `fitCircle` of the source: Kåsa least-squares circle fit.  `none` for
fewer than 6 points or a near-singular system. -/
def fitCircle (points : List Point) : Option CircleFit :=
  if points.length < 6 then none
  else if |fitDen points| < 1e-6 then none
  else
    let c := fitCenter points
    let rs := points.map (fun p => hypot (p.1 - c.1) (p.2 - c.2))
    let r := rs.sum / points.length
    let variance := (rs.map (fun v => (v - r) * (v - r))).sum / points.length
    some ⟨c.1, c.2, r, Real.sqrt variance / (if r = 0 then 1 else r)⟩

/-- A classifier result: a candidate shape plus its confidence. -/
structure ShapeCandidate where
  shape : DrawnShape
  confidence : ℝ

instance : Inhabited ShapeCandidate := ⟨⟨.free [] "", 0⟩⟩

/-- The `(P || 1) * (P || 1)` isoperimetric denominator. -/
def perimGuard (P : ℝ) : ℝ := if P = 0 then 1 else P

/-- `circularity = 4πA / ((P||1) * (P||1))` as computed by the classifiers. -/
def circularityOf (P A : ℝ) : ℝ :=
  4 * Real.pi * A / (perimGuard P * perimGuard P)

/-- `classifyRectangle` of the source. -/
def classifyRectangle (pts rawClosed : List Point) (P A w h : ℝ)
    (color : String) : ShapeCandidate :=
  let areaBBox := w * h
  let rectangularity := A / max 1 areaBBox
  let circularity := circularityOf P A
  let confidence :=
    if rectangularity < 0.6 ∨ circularity > 0.9 then 0
    else rectangularity * 0.8 + (1 - circularity) * 0.2
  let b := bbox rawClosed
  let aspect := w / (if h = 0 then 1 else h)
  if |aspect - 1| < 0.2 then
    let cx := b.minX + w / 2
    let cy := b.minY + h / 2
    let s := min w h
    ⟨.rect (cx - s / 2) (cy - s / 2) s s color, confidence⟩
  else ⟨.rect b.minX b.minY w h color, confidence⟩

/-- `classifyCircle` of the source. -/
def classifyCircle (pts rawClosed : List Point) (P A w h : ℝ) (closed : Bool)
    (color : String) : ShapeCandidate :=
  if closed = false ∨ min w h < 10 then ⟨.free pts color, 0⟩
  else
    let circularity := circularityOf P A
    let confidence := if circularity < 0.75 then 0 else circularity * 0.9
    let b := bbox rawClosed
    let fallback : ShapeCandidate :=
      ⟨.circle (b.minX + w / 2) (b.minY + h / 2) (min w h / 2) color,
        confidence⟩
    match fitCircle pts with
    | some fit =>
        if fit.r > 6 ∧ fit.stdRel < 0.15 then
          ⟨.circle fit.cx fit.cy fit.r color, confidence + 0.1⟩
        else fallback
    | none => fallback

/-- The summed pairwise distance of the triple `pts[i], pts[j], pts[k]`. -/
def tripleSum (pts : List Point) (i j k : ℕ) : ℝ :=
  euclid (pts.getD i pt0) (pts.getD j pt0)
    + euclid (pts.getD j pt0) (pts.getD k pt0)
    + euclid (pts.getD k pt0) (pts.getD i pt0)

/-- All index triples `i < j < k < n` in the order of the source's nested
loops. -/
def triples (n : ℕ) : List (ℕ × ℕ × ℕ) :=
  (List.range n).bind fun i =>
    (List.range' (i + 1) (n - (i + 1))).bind fun j =>
      (List.range' (j + 1) (n - (j + 1))).map fun k => (i, j, k)

/-- One iteration of `classifyTriangle`'s triple loop: keep the running
`(maxSum, best)` unless the current triple's summed pairwise distance is a
strict improvement. -/
def tripleStep (pts : List Point) (acc : ℝ × List Point) (t : ℕ × ℕ × ℕ) :
    ℝ × List Point :=
  if tripleSum pts t.1 t.2.1 t.2.2 > acc.1
  then (tripleSum pts t.1 t.2.1 t.2.2,
    [pts.getD t.1 pt0, pts.getD t.2.1 pt0, pts.getD t.2.2 pt0])
  else acc

/-- The `(maxSum, best)` scan of `classifyTriangle`'s triple loop. -/
def bestTriple (pts : List Point) : ℝ × List Point :=
  (triples pts.length).foldl (tripleStep pts) (-1, [])

/-- `classifyTriangle` of the source. -/
def classifyTriangle (pts : List Point) (P A : ℝ) (color : String) :
    ShapeCandidate :=
  let corners := countCorners pts 35
  let circularity := circularityOf P A
  let confidence :=
    if 3 ≤ corners ∧ corners ≤ 5 ∧ circularity < 0.85
    then min 0.8 (((corners : ℝ) - 2) * 0.2) + (1 - circularity) * 0.3
    else 0
  if confidence < 0.3 then ⟨.free pts color, 0⟩
  else
    let best := (bestTriple pts).2
    if best.length = 3 then ⟨.triangle best color, confidence⟩
    else ⟨.free pts color, 0⟩

/-- Stable insertion step of the descending-confidence sort.  An element
moves past `d` only when `d` has strictly greater confidence, so elements of
equal confidence keep their relative order: this is the unique stable sort,
matching the stability that ECMAScript guarantees for `Array.prototype.sort`
with the comparator `(a, b) => b.confidence - a.confidence`. -/
def insertDesc (c : ShapeCandidate) : List ShapeCandidate → List ShapeCandidate
  | [] => [c]
  | d :: ds =>
    if d.confidence > c.confidence then d :: insertDesc c ds else c :: d :: ds

/-- Stable sort by descending confidence (see `insertDesc`). -/
def sortDesc : List ShapeCandidate → List ShapeCandidate
  | [] => []
  | c :: cs => insertDesc c (sortDesc cs)

/-- `ensureClosed(pointsRaw)` in `recognize` (default `minClosePx = 8`). -/
def rawClosedOf (pointsRaw : List Point) : List Point :=
  ensureClosed pointsRaw 8

/-- The simplification tolerance `eps = max(3, hypot(w, h) * 0.01)` of
`recognize`. -/
def epsOf (pointsRaw : List Point) : ℝ :=
  max 3 (hypot (bbox (rawClosedOf pointsRaw)).w
    (bbox (rawClosedOf pointsRaw)).h * 0.01)

/-- The simplified polygon `pts = rdp(rawClosed, eps)` of `recognize`. -/
def simplifiedOf (pointsRaw : List Point) : List Point :=
  rdp (rawClosedOf pointsRaw) (epsOf pointsRaw)

/-- The three-element candidate list of `recognize`, in construction order:
rectangle, circle, triangle. -/
def candidatesOf (pointsRaw : List Point) (color : String) :
    List ShapeCandidate :=
  let rawClosed := rawClosedOf pointsRaw
  let b := bbox rawClosed
  let pts := simplifiedOf pointsRaw
  let P := polygonPerimeter pts
  let A := polygonArea pts
  let closed := pathClosed pointsRaw
  [classifyRectangle pts rawClosed P A b.w b.h color,
    classifyCircle pts rawClosed P A b.w b.h closed color,
    classifyTriangle pts P A color]

/-- The candidates surviving the `c.confidence > 0.4` filter of `recognize`. -/
def survivorsOf (pointsRaw : List Point) (color : String) :
    List ShapeCandidate :=
  (candidatesOf pointsRaw color).filter fun c => decide (c.confidence > 0.4)

/-- `recognize` of the source (the scored multi-candidate version). -/
def recognize (pointsRaw : List Point) (color : String) : DrawnShape :=
  if (simplifiedOf pointsRaw).length < 3 then
    .free (rawClosedOf pointsRaw) color
  else if 0 < (survivorsOf pointsRaw color).length then
    (sortDesc (survivorsOf pointsRaw color)).headI.shape
  else .free (simplifiedOf pointsRaw) color

/-! ## List helper lemmas -/

lemma headI_mem {l : List Point} (h : l ≠ []) : l.headI ∈ l := by
  cases l with
  | nil => exact absurd rfl h
  | cons a t => exact List.mem_cons_self a t

lemma headI_append {l r : List Point} (h : l ≠ []) :
    (l ++ r).headI = l.headI := by
  cases l with
  | nil => exact absurd rfl h
  | cons a t => rfl

lemma getLastI_append {l r : List Point} (h : r ≠ []) :
    (l ++ r).getLastI = r.getLastI := by
  rw [List.getLastI_eq_getLast?, List.getLastI_eq_getLast?,
    List.getLast?_append]
  cases hr : r.getLast? with
  | none =>
    exfalso
    cases r with
    | nil => exact h rfl
    | cons a t => simp at hr
  | some b => simp

lemma headI_take {ps : List Point} {m : ℕ} (h : 1 ≤ m) :
    (ps.take m).headI = ps.headI := by
  cases ps with
  | nil => simp
  | cons a t =>
    cases m with
    | zero => omega
    | succ k => rfl

lemma headI_dropLast {l : List Point} (h : 2 ≤ l.length) :
    l.dropLast.headI = l.headI := by
  cases l with
  | nil => simp at h
  | cons a t =>
    cases t with
    | nil => simp at h
    | cons b u => simp [List.dropLast]

lemma getLastI_drop {ps : List Point} {i : ℕ} (h : i < ps.length) :
    (ps.drop i).getLastI = ps.getLastI := by
  have hne : ps.drop i ≠ [] := by
    intro hnil
    have := congrArg List.length hnil
    simp at this
    omega
  conv_rhs => rw [← List.take_append_drop i ps]
  exact (getLastI_append hne).symm

lemma getLastI_mem {l : List Point} (h : l ≠ []) : l.getLastI ∈ l := by
  rw [List.getLastI_eq_getLast?, List.getLast?_eq_getLast l h]
  exact List.getLast_mem h

lemma pair_headI_getLastI_sublist {ps : List Point} (h : 2 ≤ ps.length) :
    [ps.headI, ps.getLastI].Sublist ps := by
  cases ps with
  | nil => simp at h
  | cons a t =>
    cases t with
    | nil => simp at h
    | cons b u =>
      have hmem : (a :: b :: u).getLastI ∈ b :: u := by
        have h1 : (a :: b :: u).getLastI = (b :: u).getLastI := by
          rw [List.getLastI_eq_getLast?, List.getLastI_eq_getLast?,
            List.getLast?_cons_cons]
        rw [h1]
        exact getLastI_mem (by simp)
      have : [(a :: b :: u).getLastI].Sublist (b :: u) :=
        List.singleton_sublist.mpr hmem
      simpa [List.headI] using this.cons_cons a

lemma sublist_dropLast {l s : List Point} (h : l.Sublist s) :
    l.dropLast.Sublist s.dropLast := by
  induction h with
  | slnil => simp
  | @cons l₁ l₂ a ha ih =>
    cases l₂ with
    | nil => simp [List.sublist_nil.mp ha]
    | cons b t =>
      rw [List.dropLast_cons₂]
      exact ih.cons a
  | @cons₂ l₁ l₂ a ha ih =>
    cases l₂ with
    | nil => simp [List.sublist_nil.mp ha]
    | cons b t =>
      cases l₁ with
      | nil => simp
      | cons c u =>
        rw [List.dropLast_cons₂, List.dropLast_cons₂]
        exact ih.cons₂ a

lemma dropLast_take {ps : List Point} {m : ℕ} (h : m ≤ ps.length) :
    (ps.take m).dropLast = ps.take (m - 1) := by
  rw [List.dropLast_eq_take, List.take_take, List.length_take]
  congr 1
  omega

/-! ## `rdp` unfolding and structure -/

lemma rdp_short {ps : List Point} {ε : ℝ} (h : ps.length ≤ 2) :
    rdp ps ε = ps := by
  rw [rdp]
  simp [h]

lemma rdp_eq_of_lt {ps : List Point} {ε : ℝ} (h2 : ¬ ps.length ≤ 2)
    (hd : rdpDistance ps < ε) : rdp ps ε = [ps.headI, ps.getLastI] := by
  rw [rdp]
  simp [h2, hd]

lemma rdp_eq_branch {ps : List Point} {ε : ℝ} (h2 : ¬ ps.length ≤ 2)
    (hd : ¬ rdpDistance ps < ε)
    (hbr : (rdpScan ps).1 > ε ∧ (rdpScan ps).2 > 0) :
    rdp ps ε = (rdp (ps.take ((rdpScan ps).2.toNat + 1)) ε).dropLast
      ++ rdp (ps.drop (rdpScan ps).2.toNat) ε := by
  rw [rdp]
  simp [h2, hd, hbr]

lemma rdp_eq_else {ps : List Point} {ε : ℝ} (h2 : ¬ ps.length ≤ 2)
    (hd : ¬ rdpDistance ps < ε)
    (hbr : ¬ ((rdpScan ps).1 > ε ∧ (rdpScan ps).2 > 0)) :
    rdp ps ε = [ps.headI, ps.getLastI] := by
  rw [rdp]
  simp [h2, hd, hbr]

/-- Structure theorem for `rdp`: on an input of length at least 2 the result
is an ordered sublist of the input, keeps the first and last points, and has
length at least 2; inputs of length at most 2 are returned unchanged. -/
lemma rdp_structure (ps : List Point) (ε : ℝ) :
    (ps.length ≤ 2 → rdp ps ε = ps) ∧
    (2 ≤ ps.length →
      (rdp ps ε).Sublist ps ∧ (rdp ps ε).headI = ps.headI ∧
      (rdp ps ε).getLastI = ps.getLastI ∧ 2 ≤ (rdp ps ε).length) := by
  suffices haux : ∀ (n : ℕ) (qs : List Point), qs.length = n →
      ((qs.length ≤ 2 → rdp qs ε = qs) ∧
      (2 ≤ qs.length →
        (rdp qs ε).Sublist qs ∧ (rdp qs ε).headI = qs.headI ∧
        (rdp qs ε).getLastI = qs.getLastI ∧ 2 ≤ (rdp qs ε).length)) by
    exact haux ps.length ps rfl
  intro n
  induction n using Nat.strong_induction_on with
  | _ n ihn =>
  intro ps hn
  have ih : ∀ (m : ℕ), m < n → ∀ (qs : List Point), qs.length = m →
      ((qs.length ≤ 2 → rdp qs ε = qs) ∧
      (2 ≤ qs.length →
        (rdp qs ε).Sublist qs ∧ (rdp qs ε).headI = qs.headI ∧
        (rdp qs ε).getLastI = qs.getLastI ∧ 2 ≤ (rdp qs ε).length)) := ihn
  subst hn
  by_cases h2 : ps.length ≤ 2
  · refine ⟨fun _ => rdp_short h2, fun hge => ?_⟩
    rw [rdp_short h2]
    have hlen : ps.length = 2 := le_antisymm h2 hge
    exact ⟨List.Sublist.refl ps, rfl, rfl, hge⟩
  · have h3 : 3 ≤ ps.length := by omega
    refine ⟨fun h => absurd h h2, fun _ => ?_⟩
    have hpair : ([ps.headI, ps.getLastI].Sublist ps) ∧
        ([ps.headI, ps.getLastI] : List Point).headI = ps.headI ∧
        ([ps.headI, ps.getLastI] : List Point).getLastI = ps.getLastI ∧
        2 ≤ ([ps.headI, ps.getLastI] : List Point).length := by
      refine ⟨pair_headI_getLastI_sublist (by omega), rfl, ?_, by simp⟩
      simp [List.getLastI_eq_getLast?]
    by_cases hd : rdpDistance ps < ε
    · rw [rdp_eq_of_lt h2 hd]; exact hpair
    · by_cases hbr : (rdpScan ps).1 > ε ∧ (rdpScan ps).2 > 0
      · rw [rdp_eq_branch h2 hd hbr]
        rcases rdpScan_snd_bounds ps with hneg | ⟨hi1, hi2⟩
        · rw [hneg] at hbr; omega
        · set idx := (rdpScan ps).2.toNat with hidx
          have hil : 1 ≤ idx := by omega
          have hiu : idx + 2 ≤ ps.length := by omega
          have hltake : (ps.take (idx + 1)).length = idx + 1 := by
            rw [List.length_take]; omega
          have hldrop : (ps.drop idx).length = ps.length - idx := by
            rw [List.length_drop]
          have ihl := (ih (idx + 1) (by omega) (ps.take (idx + 1)) hltake).2
            (by omega)
          have ihr := (ih (ps.length - idx) (by omega) (ps.drop idx)
            hldrop).2 (by omega)
          obtain ⟨subL, headL, lastL, lenL⟩ := ihl
          obtain ⟨subR, headR, lastR, lenR⟩ := ihr
          have hRne : rdp (ps.drop idx) ε ≠ [] := by
            intro hnil; rw [hnil] at lenR; simp at lenR
          have hLdne : (rdp (ps.take (idx + 1)) ε).dropLast ≠ [] := by
            intro hnil
            have := congrArg List.length hnil
            simp [List.length_dropLast] at this
            omega
          refine ⟨?_, ?_, ?_, ?_⟩
          · have hsub1 : (rdp (ps.take (idx + 1)) ε).dropLast.Sublist
                (ps.take idx) := by
              have := sublist_dropLast subL
              rwa [dropLast_take (by omega)] at this
            have hsub2 : (rdp (ps.drop idx) ε).Sublist (ps.drop idx) := subR
            have := hsub1.append hsub2
            rwa [List.take_append_drop] at this
          · rw [headI_append hLdne, headI_dropLast lenL, headL,
              headI_take (by omega)]
          · rw [getLastI_append hRne, lastR, getLastI_drop (by omega)]
          · rw [List.length_append, List.length_dropLast]
            omega
      · rw [rdp_eq_else h2 hd hbr]; exact hpair

/-! ## Spec-side definitions -/

/-- A fixed, arbitrary style tag used by concrete witnesses. -/
def col : String := "red"

/-- Total traversed polyline length, written as the natural structural
recursion (the spec's "total traversed length" / "perimeter"). -/
def pathLen : List Point → ℝ
  | [] => 0
  | [_] => 0
  | p :: q :: r => euclid p q + pathLen (q :: r)

/-- The variant tag of a `DrawnShape`, to talk about "the same variant". -/
def shapeKind : DrawnShape → ℕ
  | .rect _ _ _ _ _ => 0
  | .circle _ _ _ _ => 1
  | .triangle _ _ => 2
  | .free _ _ => 3

/-- Uniform scaling of a point by `k`. -/
def scalePt (k : ℝ) (p : Point) : Point := (k * p.1, k * p.2)

lemma euclid_comm (p q : Point) : euclid p q = euclid q p := by
  unfold euclid hypot
  congr 1
  ring

/-! ## The traversed-length folds compute `pathLen` -/

lemma pathLen_concat (l : List Point) (q : Point) (hl : l ≠ []) :
    pathLen (l ++ [q]) = pathLen l + euclid l.getLastI q := by
  induction l with
  | nil => exact absurd rfl hl
  | cons a t ih =>
    cases t with
    | nil => simp [pathLen, List.getLastI]
    | cons b u =>
      have h1 : ((a :: b :: u) ++ [q]) = a :: ((b :: u) ++ [q]) := rfl
      rw [h1]
      have h2 : pathLen (a :: ((b :: u) ++ [q]))
          = euclid a b + pathLen ((b :: u) ++ [q]) := by
        cases u <;> rfl
      rw [h2, ih (by simp), pathLen]
      have h3 : (a :: b :: u).getLastI = (b :: u).getLastI := by
        rw [List.getLastI_eq_getLast?, List.getLastI_eq_getLast?,
          List.getLast?_cons_cons]
      rw [h3]
      ring

lemma pathClosedPerim_concat (l : List Point) (q : Point) (hl : l ≠ []) :
    pathClosedPerim (l ++ [q]) = pathClosedPerim l + euclid q l.getLastI := by
  unfold pathClosedPerim
  rw [List.enum_append, List.foldl_append]
  have hstep : ∀ (acc : ℝ), ∀ ip ∈ l.enum,
      acc + (if ip.1 = 0 then 0
        else euclid ip.2 ((l ++ [q]).getD (ip.1 - 1) pt0))
      = acc + (if ip.1 = 0 then 0
        else euclid ip.2 (l.getD (ip.1 - 1) pt0)) := by
    intro acc ip hip
    by_cases h0 : ip.1 = 0
    · simp [h0]
    · have hi : ip.1 < l.length := by
        obtain ⟨⟨k, hk⟩, rfl⟩ := List.mem_iff_get.mp hip
        have : l.enum.get ⟨k, hk⟩ = (k, l.get ⟨k, by simpa using hk⟩) := by
          simp only [List.get_eq_getElem]
          rw [List.getElem_enum]
        rw [this]
        simpa using hk
      rw [List.getD_append _ _ _ _ (by omega)]
  rw [List.foldl_ext _ _ _ (fun acc ip hip => hstep acc ip hip)]
  have henumq : List.enumFrom l.length [q] = [(l.length, q)] := rfl
  rw [henumq]
  simp only [List.foldl_cons, List.foldl_nil]
  have hl0 : l.length ≠ 0 := by
    intro h
    exact hl (List.length_eq_zero.mp h)
  rw [if_neg hl0]
  congr 1
  have hlt : l.length - 1 < l.length := by omega
  rw [List.getD_append _ _ _ _ hlt]
  rw [List.getLastI_eq_getLast?, List.getLast?_eq_getLast l hl]
  rw [List.getD_eq_getElem?_getD, List.getElem?_eq_getElem hlt]
  simp [List.getLast_eq_getElem]

lemma pathClosedPerim_eq_pathLen (ps : List Point) :
    pathClosedPerim ps = pathLen ps := by
  induction ps using List.reverseRecOn with
  | nil => rfl
  | append_singleton l q ih =>
    cases hl : l with
    | nil => simp [hl, pathClosedPerim, pathLen, List.enum]
    | cons a t =>
      rw [← hl, pathClosedPerim_concat l q (by rw [hl]; simp),
        pathLen_concat l q (by rw [hl]; simp), ih, euclid_comm]

lemma polygonPerimeter_concat (l : List Point) (q : Point) (hl : l ≠ []) :
    polygonPerimeter (l ++ [q]) = polygonPerimeter l + euclid q l.getLastI := by
  unfold polygonPerimeter
  have hlen : (l ++ [q]).length - 1 = (l.length - 1) + 1 := by
    simp only [List.length_append, List.length_singleton]
    have : l.length ≠ 0 := fun h => hl (List.length_eq_zero.mp h)
    omega
  rw [hlen, List.range'_concat, List.foldl_append]
  have hstep : ∀ (acc : ℝ), ∀ i ∈ List.range' 1 (l.length - 1),
      acc + hypot (((l ++ [q]).getD i pt0).1 - ((l ++ [q]).getD (i - 1) pt0).1)
        (((l ++ [q]).getD i pt0).2 - ((l ++ [q]).getD (i - 1) pt0).2)
      = acc + hypot ((l.getD i pt0).1 - (l.getD (i - 1) pt0).1)
        ((l.getD i pt0).2 - (l.getD (i - 1) pt0).2) := by
    intro acc i hi
    have hmem := List.mem_range'_1.mp hi
    rw [List.getD_append _ _ _ _ (by omega), List.getD_append _ _ _ _ (by omega)]
  rw [List.foldl_ext _ _ _ (fun acc i hi => hstep acc i hi)]
  simp only [List.foldl_cons, List.foldl_nil]
  have hidx : 1 + 1 * (l.length - 1) = l.length := by
    have : l.length ≠ 0 := fun h => hl (List.length_eq_zero.mp h)
    omega
  rw [hidx]
  congr 1
  · have : (l ++ [q]).getD l.length pt0 = q := by
      rw [List.getD_eq_getElem?_getD, List.getElem?_append_right (by simp)]
      simp
    rw [this]
    have hpred : (l ++ [q]).getD (l.length - 1) pt0 = l.getLastI := by
      have hlt : l.length - 1 < l.length := by
        have : l.length ≠ 0 := fun h => hl (List.length_eq_zero.mp h)
        omega
      rw [List.getD_append _ _ _ _ hlt]
      rw [List.getLastI_eq_getLast?, List.getLast?_eq_getLast l hl]
      rw [List.getD_eq_getElem?_getD, List.getElem?_eq_getElem hlt]
      simp [List.getLast_eq_getElem]
    rw [hpred]
    rfl

lemma polygonPerimeter_eq_pathLen (ps : List Point) :
    polygonPerimeter ps = pathLen ps := by
  induction ps using List.reverseRecOn with
  | nil => rfl
  | append_singleton l q ih =>
    cases hl : l with
    | nil => simp [hl, polygonPerimeter, pathLen]
    | cons a t =>
      rw [← hl, polygonPerimeter_concat l q (by rw [hl]; simp),
        pathLen_concat l q (by rw [hl]; simp), ih, euclid_comm]

/-! ## Claims C3, C4, C5 -/

/-- C3: a stroke whose closed path still has fewer than 3 points is returned
as `Freeform` over that minimal closed path (no classifier output is used),
and every point of the output comes from the input stroke, so no new
(potentially NaN) coordinates appear. -/
theorem C3_short_stroke_freeform (s : List Point) (c : String)
    (h : (rawClosedOf s).length < 3) :
    recognize s c = .free (rawClosedOf s) c ∧
      ∀ p ∈ rawClosedOf s, p ∈ s := by
  have hsimp : simplifiedOf s = rawClosedOf s :=
    rdp_short (by omega)
  constructor
  · unfold recognize
    rw [hsimp]
    simp [h]
  · intro p hp
    unfold rawClosedOf ensureClosed at hp
    by_cases h1 : s.length < 2
    · simpa [h1] using hp
    · rw [if_neg h1] at hp
      by_cases h2 : hypot (s.headI.1 - s.getLastI.1)
          (s.headI.2 - s.getLastI.2) ≤ 8
      · simpa [h2] using hp
      · rw [if_neg h2] at hp
        rcases List.mem_append.mp hp with h3 | h3
        · exact h3
        · have : p = s.headI := by simpa using h3
          rw [this]
          exact headI_mem (by intro hnil; rw [hnil] at h1; simp at h1)

/-- Witness for C3 at the one-point stroke `[(0, 0)]`. -/
theorem C3_witness :
    (rawClosedOf [((0:ℝ), (0:ℝ))]).length < 3 ∧
      (recognize [((0:ℝ), (0:ℝ))] col = .free (rawClosedOf [((0:ℝ), (0:ℝ))]) col ∧
        ∀ p ∈ rawClosedOf [((0:ℝ), (0:ℝ))], p ∈ [((0:ℝ), (0:ℝ))]) := by
  have h : (rawClosedOf [((0:ℝ), (0:ℝ))]).length < 3 := by
    simp [rawClosedOf, ensureClosed]
  exact ⟨h, C3_short_stroke_freeform [((0:ℝ), (0:ℝ))] col h⟩

/-- C4: `pathClosed` is true exactly when the path has at least 3 points and
the Euclidean distance between its first and last point is strictly below
`max(10, 5% of the total traversed polyline length)`. -/
theorem C4_pathClosed_iff (ps : List Point) :
    pathClosed ps = true ↔
      3 ≤ ps.length ∧
        euclid ps.headI ps.getLastI < max 10 (0.05 * pathLen ps) := by
  unfold pathClosed
  by_cases h3 : ps.length < 3
  · simp only [if_pos h3]
    constructor
    · intro h; exact absurd h (by simp)
    · intro h; omega
  · rw [if_neg h3, decide_eq_true_iff, pathClosedPerim_eq_pathLen]
    constructor
    · intro h
      refine ⟨by omega, ?_⟩
      rw [show (0.05 : ℝ) * pathLen ps = pathLen ps * 0.05 by ring]
      exact h
    · intro ⟨_, h⟩
      rw [show pathLen ps * 0.05 = (0.05 : ℝ) * pathLen ps by ring]
      exact h

/-- C5 counterexample: on the one-point input `[(0, 0)]` (every point
sequence is in the claim's scope), `rdp` returns the input unchanged, whose
length is 1, contradicting the claimed output length of at least 2. -/
theorem C5_counterexample :
    rdp [((0:ℝ), (0:ℝ))] 3 = [((0:ℝ), (0:ℝ))] ∧
      ¬ 2 ≤ (rdp [((0:ℝ), (0:ℝ))] 3).length := by
  have h : rdp [((0:ℝ), (0:ℝ))] 3 = [((0:ℝ), (0:ℝ))] := rdp_short (by simp)
  refine ⟨h, ?_⟩
  rw [h]
  simp

/-- C5 (amended): inputs of length at most 2 are returned unchanged by
`rdp`, and for every input of length at least 2 the output is an ordered
subsequence of the input vertices that retains the original first and last
points and has length at least 2. -/
theorem C5_rdp_output_structure (ps : List Point) (ε : ℝ) :
    (ps.length ≤ 2 → rdp ps ε = ps) ∧
    (2 ≤ ps.length →
      (rdp ps ε).Sublist ps ∧ (rdp ps ε).headI = ps.headI ∧
      (rdp ps ε).getLastI = ps.getLastI ∧ 2 ≤ (rdp ps ε).length) :=
  rdp_structure ps ε

/-- Witness for C5 at the two-point input `[(0, 0), (4, 0)]`. -/
theorem C5_witness :
    rdp [((0:ℝ), (0:ℝ)), ((4:ℝ), (0:ℝ))] 3 = [((0:ℝ), (0:ℝ)), ((4:ℝ), (0:ℝ))] ∧
      (rdp [((0:ℝ), (0:ℝ)), ((4:ℝ), (0:ℝ))] 3).Sublist
        [((0:ℝ), (0:ℝ)), ((4:ℝ), (0:ℝ))] ∧
      2 ≤ (rdp [((0:ℝ), (0:ℝ)), ((4:ℝ), (0:ℝ))] 3).length := by
  have h1 := (C5_rdp_output_structure [((0:ℝ), (0:ℝ)), ((4:ℝ), (0:ℝ))] 3).1
    (by simp)
  have h2 := (C5_rdp_output_structure [((0:ℝ), (0:ℝ)), ((4:ℝ), (0:ℝ))] 3).2
    (by simp)
  exact ⟨h1, h2.1, h2.2.2.2⟩

/-! ## Claim C6: `fitCircle` -/

/-- Mean distance from the points to `q` (the spec's "average distance of
all points to the fitted center"). -/
def meanDist (ps : List Point) (q : Point) : ℝ :=
  (ps.map (fun p => euclid p q)).sum / ps.length

/-- Standard deviation of the per-point distances to `q`. -/
def stdDist (ps : List Point) (q : Point) : ℝ :=
  Real.sqrt ((ps.map (fun p => (euclid p q - meanDist ps q) ^ 2)).sum
    / ps.length)

lemma list_sum_nonneg {l : List ℝ} (h : ∀ x ∈ l, 0 ≤ x) : 0 ≤ l.sum := by
  induction l with
  | nil => simp
  | cons a t ih =>
    rw [List.sum_cons]
    have ha := h a (List.mem_cons_self a t)
    have ht := ih (fun x hx => h x (List.mem_cons_of_mem a hx))
    linarith

lemma list_sum_eq_zero {l : List ℝ} (h : ∀ x ∈ l, 0 ≤ x) (hs : l.sum = 0) :
    ∀ x ∈ l, x = 0 := by
  induction l with
  | nil => simp
  | cons a t ih =>
    rw [List.sum_cons] at hs
    have ha := h a (List.mem_cons_self a t)
    have ht := list_sum_nonneg (fun x hx => h x (List.mem_cons_of_mem a hx))
    have ha0 : a = 0 := by linarith
    have hts : t.sum = 0 := by linarith
    intro x hx
    rcases List.mem_cons.mp hx with rfl | hx'
    · exact ha0
    · exact ih (fun y hy => h y (List.mem_cons_of_mem a hy)) hts x hx'

lemma euclid_nonneg (p q : Point) : 0 ≤ euclid p q := Real.sqrt_nonneg _

lemma euclid_eq_zero {p q : Point} (h : euclid p q = 0) : p = q := by
  unfold euclid hypot at h
  have harg : (p.1 - q.1) ^ 2 + (p.2 - q.2) ^ 2 ≤ 0 :=
    Real.sqrt_eq_zero'.mp h
  have h1 : (p.1 - q.1) ^ 2 = 0 ∧ (p.2 - q.2) ^ 2 = 0 := by
    constructor <;> nlinarith [sq_nonneg (p.1 - q.1), sq_nonneg (p.2 - q.2)]
  have hx : p.1 = q.1 := by nlinarith [h1.1]
  have hy : p.2 = q.2 := by nlinarith [h1.2]
  exact Prod.ext hx hy

/-- If all points coincide, the centered second moments vanish, hence so
does the normal-equations denominator. -/
lemma fitDen_eq_zero_of_const {ps : List Point} {q : Point} (hne : ps ≠ [])
    (h : ∀ p ∈ ps, p = q) : fitDen ps = 0 := by
  have hn : (ps.length : ℝ) ≠ 0 := by
    simp [List.length_eq_zero]
    exact hne
  have hx : meanX ps = q.1 := by
    unfold meanX
    have : ps.map Prod.fst = List.replicate ps.length q.1 := by
      rw [List.eq_replicate]
      refine ⟨by simp, ?_⟩
      intro b hb
      obtain ⟨p, hp, rfl⟩ := List.mem_map.mp hb
      rw [h p hp]
    rw [this, List.sum_replicate, nsmul_eq_mul]
    field_simp
  have hy : meanY ps = q.2 := by
    unfold meanY
    have : ps.map Prod.snd = List.replicate ps.length q.2 := by
      rw [List.eq_replicate]
      refine ⟨by simp, ?_⟩
      intro b hb
      obtain ⟨p, hp, rfl⟩ := List.mem_map.mp hb
      rw [h p hp]
    rw [this, List.sum_replicate, nsmul_eq_mul]
    field_simp
  have hmom : ∀ a b : ℕ, 1 ≤ a + b → momentSum ps a b = 0 := by
    intro a b hab
    unfold momentSum
    have : ps.map (fun p =>
        (p.1 - meanX ps) ^ a * (p.2 - meanY ps) ^ b)
        = List.replicate ps.length 0 := by
      rw [List.eq_replicate]
      refine ⟨by simp, ?_⟩
      intro x hx'
      obtain ⟨p, hp, rfl⟩ := List.mem_map.mp hx'
      rw [h p hp, hx, hy]
      rcases Nat.lt_or_ge 0 a with ha | ha
      · rw [show q.1 - q.1 = 0 by ring, zero_pow (by omega)]
        ring
      · have hb : 1 ≤ b := by omega
        rw [show q.2 - q.2 = 0 by ring, zero_pow (by omega)]
        ring
    rw [this, List.sum_replicate]
    simp
  unfold fitDen
  rw [hmom 2 0 (by omega), hmom 0 2 (by omega), hmom 1 1 (by omega)]
  ring

lemma fitCircle_some_spec {ps : List Point} {f : CircleFit}
    (hf : fitCircle ps = some f) :
    0 < f.r ∧ f.r = meanDist ps (f.cx, f.cy) ∧
      f.stdRel = stdDist ps (f.cx, f.cy) / f.r := by
  unfold fitCircle at hf
  by_cases h6 : ps.length < 6
  · rw [if_pos h6] at hf
    simp at hf
  · rw [if_neg h6] at hf
    by_cases hden : |fitDen ps| < 1e-6
    · rw [if_pos hden] at hf
      simp at hf
    · rw [if_neg hden] at hf
      simp only [] at hf
      have hne : ps ≠ [] := by
        intro hnil
        rw [hnil] at h6
        simp at h6
      have hn : (0 : ℝ) < ps.length := by
        have h1 : 1 ≤ ps.length := by omega
        exact_mod_cast Nat.lt_of_lt_of_le Nat.zero_lt_one h1
      set c := fitCenter ps with hc
      set rs := ps.map (fun p => hypot (p.1 - c.1) (p.2 - c.2)) with hrs
      set r := rs.sum / (ps.length : ℝ) with hrdef
      set variance := (rs.map (fun v => (v - r) * (v - r))).sum
        / (ps.length : ℝ) with hvar
      obtain rfl := Option.some_inj.mp hf
      have hrmean : r = meanDist ps (c.1, c.2) := by
        rw [hrdef, hrs]
        rfl
      have hrnn : 0 ≤ r := by
        rw [hrdef]
        apply div_nonneg _ (le_of_lt hn)
        apply list_sum_nonneg
        intro x hx
        rw [hrs] at hx
        obtain ⟨p, hp, rfl⟩ := List.mem_map.mp hx
        exact Real.sqrt_nonneg _
      have hrpos : 0 < r := by
        rcases lt_or_eq_of_le hrnn with hlt | heq
        · exact hlt
        · exfalso
          have hsum : rs.sum = 0 := by
            have h0 : rs.sum / (ps.length : ℝ) = 0 := heq.symm ▸ hrdef.symm
            rcases div_eq_zero_iff.mp h0 with h | h
            · exact h
            · exact absurd h (ne_of_gt hn)
          have hall : ∀ p ∈ ps, p = (c.1, c.2) := by
            intro p hp
            have hmem : euclid p (c.1, c.2) ∈ rs := by
              rw [hrs]
              exact List.mem_map_of_mem _ hp
            have h0 : euclid p (c.1, c.2) = 0 :=
              list_sum_eq_zero
                (by
                  intro x hx
                  rw [hrs] at hx
                  obtain ⟨q, hq, rfl⟩ := List.mem_map.mp hx
                  exact Real.sqrt_nonneg _)
                hsum _ hmem
            exact euclid_eq_zero h0
          have hzero : fitDen ps = 0 := fitDen_eq_zero_of_const hne hall
          rw [hzero] at hden
          simp at hden
          linarith
      refine ⟨hrpos, hrmean, ?_⟩
      show Real.sqrt variance / (if r = 0 then 1 else r)
        = stdDist ps (c.1, c.2) / r
      rw [if_neg (ne_of_gt hrpos)]
      congr 1
      unfold stdDist
      congr 1
      rw [hvar, hrs, List.map_map]
      have hfun : ((fun v => (v - r) * (v - r))
            ∘ fun p : Point => hypot (p.1 - c.1) (p.2 - c.2))
          = fun p : Point =>
            (euclid p (c.1, c.2) - meanDist ps (c.1, c.2)) ^ 2 := by
        funext p
        show (euclid p (c.1, c.2) - r) * (euclid p (c.1, c.2) - r)
          = (euclid p (c.1, c.2) - meanDist ps (c.1, c.2)) ^ 2
        rw [← hrmean]
        ring
      rw [hfun]

/-- C6: `fitCircle` returns `none` exactly for fewer than 6 points or a
near-singular normal-equations denominator (below `1e-6` in absolute
value); a successful fit has a strictly positive radius equal to the mean
distance of the input points to the fitted center, and `stdRel` equal to
the standard deviation of those distances divided by the radius. -/
theorem C6_fitCircle_spec (ps : List Point) :
    (fitCircle ps = none ↔ ps.length < 6 ∨ |fitDen ps| < 1e-6) ∧
    ∀ f : CircleFit, fitCircle ps = some f →
      0 < f.r ∧ f.r = meanDist ps (f.cx, f.cy) ∧
        f.stdRel = stdDist ps (f.cx, f.cy) / f.r := by
  constructor
  · unfold fitCircle
    by_cases h6 : ps.length < 6
    · simp [h6]
    · rw [if_neg h6]
      by_cases hden : |fitDen ps| < 1e-6
      · simp [hden, h6]
      · simp [hden, h6]
  · intro f hf
    exact fitCircle_some_spec hf

/-- Six rational points on the circle of radius 5 about the origin, used to
witness a successful `fitCircle`. -/
def circPts : List Point := [(5, 0), (0, 5), (-5, 0), (0, -5), (3, 4), (-3, -4)]

lemma hypot_eval {a b c : ℝ} (hc : 0 ≤ c) (h : a ^ 2 + b ^ 2 = c ^ 2) :
    hypot a b = c := by
  rw [hypot, h, Real.sqrt_sq hc]

/-- Witness for C6: on six exact points of a radius-5 circle the fit
succeeds with center `(0,0)`, radius 5 and `stdRel` 0. -/
theorem C6_witness :
    fitCircle circPts = some ⟨0, 0, 5, 0⟩ ∧
      (0 : ℝ) < 5 ∧ (5 : ℝ) = meanDist circPts (0, 0) ∧
      (0 : ℝ) = stdDist circPts (0, 0) / 5 := by
  have hx : meanX circPts = 0 := by
    norm_num [meanX, circPts]
  have hy : meanY circPts = 0 := by
    norm_num [meanY, circPts]
  have hm20 : momentSum circPts 2 0 = 68 := by
    simp only [momentSum, hx, hy]
    norm_num [circPts]
  have hm02 : momentSum circPts 0 2 = 82 := by
    simp only [momentSum, hx, hy]
    norm_num [circPts]
  have hm11 : momentSum circPts 1 1 = 24 := by
    simp only [momentSum, hx, hy]
    norm_num [circPts]
  have hm30 : momentSum circPts 3 0 = 0 := by
    simp only [momentSum, hx, hy]
    norm_num [circPts]
  have hm12 : momentSum circPts 1 2 = 0 := by
    simp only [momentSum, hx, hy]
    norm_num [circPts]
  have hm03 : momentSum circPts 0 3 = 0 := by
    simp only [momentSum, hx, hy]
    norm_num [circPts]
  have hm21 : momentSum circPts 2 1 = 0 := by
    simp only [momentSum, hx, hy]
    norm_num [circPts]
  have hden : fitDen circPts = 10000 := by
    norm_num [fitDen, hm20, hm02, hm11]
  have hcenter : fitCenter circPts = (0, 0) := by
    unfold fitCenter
    simp only [hm20, hm02, hm11, hm30, hm12, hm03, hm21, hden, hx, hy]
    norm_num
  have e1 : hypot (5 : ℝ) 0 = 5 := hypot_eval (by norm_num) (by norm_num)
  have e2 : hypot (0 : ℝ) 5 = 5 := hypot_eval (by norm_num) (by norm_num)
  have e3 : hypot (-5 : ℝ) 0 = 5 := hypot_eval (by norm_num) (by norm_num)
  have e4 : hypot (0 : ℝ) (-5) = 5 := hypot_eval (by norm_num) (by norm_num)
  have e5 : hypot (3 : ℝ) 4 = 5 := hypot_eval (by norm_num) (by norm_num)
  have e6 : hypot (-3 : ℝ) (-4) = 5 := hypot_eval (by norm_num) (by norm_num)
  have hlen : circPts.length = 6 := by norm_num [circPts]
  have hrs6 : circPts.map (fun p => hypot (p.1 - 0) (p.2 - 0))
      = [5, 5, 5, 5, 5, 5] := by
    simp only [circPts, List.map_cons, List.map_nil]
    norm_num [e1, e2, e3, e4, e5, e6]
  have heval : fitCircle circPts = some ⟨0, 0, 5, 0⟩ := by
    unfold fitCircle
    rw [if_neg (by rw [hlen]; norm_num), if_neg (by rw [hden]; norm_num)]
    simp only [hcenter, hlen, hrs6]
    norm_num [Real.sqrt_zero]
  have happ := (C6_fitCircle_spec circPts).2 ⟨0, 0, 5, 0⟩ heval
  exact ⟨heval, happ.1, happ.2.1, happ.2.2⟩

/-! ## Claim C7: triangle vertex choice -/

lemma getD_mem {l : List Point} {i : ℕ} (h : i < l.length) :
    l.getD i pt0 ∈ l := by
  rw [List.getD_eq_getElem?_getD, List.getElem?_eq_getElem h]
  exact List.getElem_mem h

lemma triples_mem {n i j k : ℕ} :
    (i, j, k) ∈ triples n ↔ i < j ∧ j < k ∧ k < n := by
  unfold triples
  simp only [List.mem_bind, List.mem_map, List.mem_range, List.mem_range'_1,
    Prod.mk.injEq]
  constructor
  · rintro ⟨a, ha, b, ⟨hb1, hb2⟩, c, ⟨hc1, hc2⟩, rfl, rfl, rfl⟩
    omega
  · rintro ⟨hij, hjk, hkn⟩
    exact ⟨i, by omega, j, ⟨by omega, by omega⟩, k, ⟨by omega, by omega⟩,
      rfl, rfl, rfl⟩

lemma tripleFold_spec (pts : List Point) (l : List (ℕ × ℕ × ℕ))
    (acc : ℝ × List Point) :
    acc.1 ≤ (l.foldl (tripleStep pts) acc).1 ∧
    (∀ t ∈ l, tripleSum pts t.1 t.2.1 t.2.2 ≤ (l.foldl (tripleStep pts) acc).1) ∧
    (l.foldl (tripleStep pts) acc = acc ∨
      ∃ t ∈ l, l.foldl (tripleStep pts) acc
        = (tripleSum pts t.1 t.2.1 t.2.2,
          [pts.getD t.1 pt0, pts.getD t.2.1 pt0, pts.getD t.2.2 pt0])) := by
  induction l generalizing acc with
  | nil => exact ⟨le_refl _, by simp, Or.inl rfl⟩
  | cons a t ih =>
    simp only [List.foldl_cons]
    obtain ⟨ih1, ih2, ih3⟩ := ih (tripleStep pts acc a)
    have hstep : acc.1 ≤ (tripleStep pts acc a).1 ∧
        tripleSum pts a.1 a.2.1 a.2.2 ≤ (tripleStep pts acc a).1 := by
      unfold tripleStep
      by_cases hgt : tripleSum pts a.1 a.2.1 a.2.2 > acc.1
      · rw [if_pos hgt]
        exact ⟨le_of_lt hgt, le_refl _⟩
      · rw [if_neg hgt]
        exact ⟨le_refl _, le_of_not_lt hgt⟩
    refine ⟨le_trans hstep.1 ih1, ?_, ?_⟩
    · intro u hu
      rcases List.mem_cons.mp hu with rfl | hu'
      · exact le_trans hstep.2 ih1
      · exact ih2 u hu'
    · rcases ih3 with heq | ⟨u, hu, hres⟩
      · rw [heq]
        unfold tripleStep
        by_cases hgt : tripleSum pts a.1 a.2.1 a.2.2 > acc.1
        · rw [if_pos hgt]
          exact Or.inr ⟨a, List.mem_cons_self a t, rfl⟩
        · rw [if_neg hgt]
          exact Or.inl rfl
      · exact Or.inr ⟨u, List.mem_cons_of_mem a hu, hres⟩

/-- C7: whenever `classifyTriangle` emits a `Triangle`, its three vertices
are points of the simplified polygon indexed by some `i < j < k`, and the
summed pairwise distance of that triple is maximal over all index triples
`i' < j' < k'` of the simplified polygon. -/
theorem C7_triangle_vertices_argmax (pts : List Point) (P A : ℝ)
    (c : String) (v : List Point) (conf : ℝ)
    (hf : classifyTriangle pts P A c = ⟨.triangle v c, conf⟩) :
    ∃ i j k, i < j ∧ j < k ∧ k < pts.length ∧
      v = [pts.getD i pt0, pts.getD j pt0, pts.getD k pt0] ∧
      (∀ p ∈ v, p ∈ pts) ∧
      ∀ i' j' k', i' < j' → j' < k' → k' < pts.length →
        tripleSum pts i' j' k' ≤ tripleSum pts i j k := by
  unfold classifyTriangle at hf
  set conf0 := if 3 ≤ countCorners pts 35 ∧ countCorners pts 35 ≤ 5 ∧
      circularityOf P A < 0.85
    then min 0.8 (((countCorners pts 35 : ℝ) - 2) * 0.2)
      + (1 - circularityOf P A) * 0.3
    else 0 with hconf0
  by_cases hlow : conf0 < 0.3
  · rw [if_pos hlow] at hf
    exact absurd (congrArg ShapeCandidate.shape hf) (by simp)
  · rw [if_neg hlow] at hf
    by_cases hlen3 : (bestTriple pts).2.length = 3
    · rw [if_pos hlen3] at hf
      have hshape : DrawnShape.triangle (bestTriple pts).2 c
          = DrawnShape.triangle v c := congrArg ShapeCandidate.shape hf
      have hv : (bestTriple pts).2 = v := by
        injection hshape
      obtain ⟨hle, hmax, hform⟩ :=
        tripleFold_spec pts (triples pts.length) (-1, [])
      rcases hform with heq | ⟨t, ht, hres⟩
      · rw [show ((triples pts.length).foldl (tripleStep pts) (-1, []))
            = bestTriple pts from rfl] at heq
        rw [heq] at hlen3
        simp at hlen3
      · rw [show ((triples pts.length).foldl (tripleStep pts) (-1, []))
            = bestTriple pts from rfl] at hres hmax
        obtain ⟨i, j, k⟩ := t
        have hijk := triples_mem.mp ht
        refine ⟨i, j, k, hijk.1, hijk.2.1, hijk.2.2, ?_, ?_, ?_⟩
        · rw [← hv, hres]
        · intro p hp
          rw [← hv, hres] at hp
          simp only [List.mem_cons, List.not_mem_nil, or_false] at hp
          rcases hp with rfl | rfl | rfl
          · exact getD_mem (by omega)
          · exact getD_mem (by omega)
          · exact getD_mem (by omega)
        · intro a b d hab hbd hdlen
          have hmem : (a, b, d) ∈ triples pts.length :=
            triples_mem.mpr ⟨hab, hbd, hdlen⟩
          have := hmax (a, b, d) hmem
          rw [hres] at this
          exact this
    · rw [if_neg hlen3] at hf
      exact absurd (congrArg ShapeCandidate.shape hf) (by simp)

/-- A 4-vertex square polygon used to witness a triangle emission. -/
def sq4 : List Point := [(0, 0), (4, 0), (4, 4), (0, 4)]

/-- Witness for C7: on the square polygon `sq4` (with perimeter 16 and area
16 supplied as the classifier's precomputed features) `classifyTriangle`
emits a triangle, and the theorem yields its argmax characterisation. -/
theorem C7_witness :
    classifyTriangle sq4 16 16 col
      = ⟨.triangle [((0:ℝ), (0:ℝ)), ((4:ℝ), (0:ℝ)), ((4:ℝ), (4:ℝ))] col,
        min 0.8 (((countCorners sq4 35 : ℝ) - 2) * 0.2)
          + (1 - circularityOf 16 16) * 0.3⟩ ∧
    ∃ i j k, i < j ∧ j < k ∧ k < sq4.length ∧
      [((0:ℝ), (0:ℝ)), ((4:ℝ), (0:ℝ)), ((4:ℝ), (4:ℝ))]
        = [sq4.getD i pt0, sq4.getD j pt0, sq4.getD k pt0] ∧
      (∀ p ∈ [((0:ℝ), (0:ℝ)), ((4:ℝ), (0:ℝ)), ((4:ℝ), (4:ℝ))], p ∈ sq4) ∧
      ∀ i' j' k', i' < j' → j' < k' → k' < sq4.length →
        tripleSum sq4 i' j' k' ≤ tripleSum sq4 i j k := by
  have hlen4 : sq4.length = 4 := by norm_num [sq4]
  have g0 : sq4.getD 0 pt0 = ((0:ℝ), (0:ℝ)) := rfl
  have g1 : sq4.getD 1 pt0 = ((4:ℝ), (0:ℝ)) := rfl
  have g2 : sq4.getD 2 pt0 = ((4:ℝ), (4:ℝ)) := rfl
  have g3 : sq4.getD 3 pt0 = ((0:ℝ), (4:ℝ)) := rfl
  have h04 : hypot (0:ℝ) 4 = 4 := hypot_eval (by norm_num) (by norm_num)
  have h40 : hypot (4:ℝ) 0 = 4 := hypot_eval (by norm_num) (by norm_num)
  have h0m4 : hypot (0:ℝ) (-4) = 4 := hypot_eval (by norm_num) (by norm_num)
  have hm40 : hypot (-4:ℝ) 0 = 4 := hypot_eval (by norm_num) (by norm_num)
  have hpi4 : circularityOf 16 16 = Real.pi / 4 := by
    unfold circularityOf perimGuard
    rw [if_neg (by norm_num)]
    ring
  -- the interior angle at every vertex of the square is exactly 90 degrees
  have hdeg : toDeg (Real.pi / 2) = 90 := by
    unfold toDeg
    field_simp
    ring
  have harc : Real.arccos (max (-1) (min 1 0)) = Real.pi / 2 := by
    rw [show max (-1 : ℝ) (min 1 0) = 0 by norm_num, Real.arccos_zero]
  have hc0 : cornerAt sq4 35 0 = 1 := by
    unfold cornerAt
    simp only [hlen4, g0, g1, g2, g3, show (0 + 4 - 1) % 4 = 3 by norm_num,
      show (0 + 1) % 4 = 1 by norm_num]
    norm_num [h04, h40, harc, hdeg]
  have hc1 : cornerAt sq4 35 1 = 1 := by
    unfold cornerAt
    simp only [hlen4, g0, g1, g2, g3, show (1 + 4 - 1) % 4 = 0 by norm_num,
      show (1 + 1) % 4 = 2 by norm_num]
    norm_num [h04, hm40, harc, hdeg]
  have hc2 : cornerAt sq4 35 2 = 1 := by
    unfold cornerAt
    simp only [hlen4, g0, g1, g2, g3, show (2 + 4 - 1) % 4 = 1 by norm_num,
      show (2 + 1) % 4 = 3 by norm_num]
    norm_num [h0m4, hm40, harc, hdeg]
  have hc3 : cornerAt sq4 35 3 = 1 := by
    unfold cornerAt
    simp only [hlen4, g0, g1, g2, g3, show (3 + 4 - 1) % 4 = 2 by norm_num,
      show (3 + 1) % 4 = 0 by norm_num]
    norm_num [h0m4, h40, harc, hdeg]
  have hcorners : countCorners sq4 35 = 4 := by
    unfold countCorners
    rw [if_neg (by rw [hlen4]; norm_num), hlen4,
      show List.range 4 = [0, 1, 2, 3] from rfl]
    simp only [List.foldl_cons, List.foldl_nil, hc0, hc1, hc2, hc3]
  -- the four candidate triples and their summed pairwise distances
  have ea : euclid ((0:ℝ), (0:ℝ)) ((4:ℝ), (0:ℝ)) = 4 := by
    unfold euclid
    exact hypot_eval (by norm_num) (by norm_num)
  have eb : euclid ((4:ℝ), (0:ℝ)) ((4:ℝ), (4:ℝ)) = 4 := by
    unfold euclid
    exact hypot_eval (by norm_num) (by norm_num)
  have ec : euclid ((4:ℝ), (4:ℝ)) ((0:ℝ), (0:ℝ)) = Real.sqrt 32 := by
    unfold euclid hypot
    norm_num
  have ed : euclid ((4:ℝ), (0:ℝ)) ((0:ℝ), (4:ℝ)) = Real.sqrt 32 := by
    unfold euclid hypot
    norm_num
  have ee : euclid ((0:ℝ), (4:ℝ)) ((0:ℝ), (0:ℝ)) = 4 := by
    unfold euclid
    exact hypot_eval (by norm_num) (by norm_num)
  have ef : euclid ((0:ℝ), (0:ℝ)) ((4:ℝ), (4:ℝ)) = Real.sqrt 32 := by
    unfold euclid hypot
    norm_num
  have eg : euclid ((4:ℝ), (4:ℝ)) ((0:ℝ), (4:ℝ)) = 4 := by
    unfold euclid
    exact hypot_eval (by norm_num) (by norm_num)
  have eh : euclid ((0:ℝ), (4:ℝ)) ((4:ℝ), (0:ℝ)) = Real.sqrt 32 := by
    unfold euclid hypot
    norm_num
  have hs012 : tripleSum sq4 0 1 2 = 4 + 4 + Real.sqrt 32 := by
    unfold tripleSum
    rw [g0, g1, g2, ea, eb, ec]
  have hs013 : tripleSum sq4 0 1 3 = 4 + Real.sqrt 32 + 4 := by
    unfold tripleSum
    rw [g0, g1, g3, ea, ed, ee]
  have hs023 : tripleSum sq4 0 2 3 = Real.sqrt 32 + 4 + 4 := by
    unfold tripleSum
    rw [g0, g2, g3, ef, eg, ee]
  have hs123 : tripleSum sq4 1 2 3 = 4 + 4 + Real.sqrt 32 := by
    unfold tripleSum
    rw [g1, g2, g3, eb, eg, eh]
  have hsq : (0:ℝ) ≤ Real.sqrt 32 := Real.sqrt_nonneg _
  have hbt : bestTriple sq4
      = (4 + 4 + Real.sqrt 32,
        [((0:ℝ), (0:ℝ)), ((4:ℝ), (0:ℝ)), ((4:ℝ), (4:ℝ))]) := by
    unfold bestTriple
    rw [hlen4, show triples 4
      = [(0, 1, 2), (0, 1, 3), (0, 2, 3), (1, 2, 3)] from by decide]
    simp only [List.foldl_cons, List.foldl_nil]
    rw [show tripleStep sq4 (-1, []) (0, 1, 2)
        = (4 + 4 + Real.sqrt 32,
          [((0:ℝ), (0:ℝ)), ((4:ℝ), (0:ℝ)), ((4:ℝ), (4:ℝ))]) from by
      unfold tripleStep
      rw [if_pos (by rw [hs012]; simp; linarith)]
      rw [hs012, g0, g1, g2]]
    rw [show tripleStep sq4
        (4 + 4 + Real.sqrt 32,
          [((0:ℝ), (0:ℝ)), ((4:ℝ), (0:ℝ)), ((4:ℝ), (4:ℝ))]) (0, 1, 3)
        = (4 + 4 + Real.sqrt 32,
          [((0:ℝ), (0:ℝ)), ((4:ℝ), (0:ℝ)), ((4:ℝ), (4:ℝ))]) from by
      unfold tripleStep
      rw [if_neg (by rw [hs013]; simp; linarith)]]
    rw [show tripleStep sq4
        (4 + 4 + Real.sqrt 32,
          [((0:ℝ), (0:ℝ)), ((4:ℝ), (0:ℝ)), ((4:ℝ), (4:ℝ))]) (0, 2, 3)
        = (4 + 4 + Real.sqrt 32,
          [((0:ℝ), (0:ℝ)), ((4:ℝ), (0:ℝ)), ((4:ℝ), (4:ℝ))]) from by
      unfold tripleStep
      rw [if_neg (by rw [hs023]; simp; linarith)]]
    unfold tripleStep
    rw [if_neg (by rw [hs123]; simp)]
  have hclass : classifyTriangle sq4 16 16 col
      = ⟨.triangle [((0:ℝ), (0:ℝ)), ((4:ℝ), (0:ℝ)), ((4:ℝ), (4:ℝ))] col,
        min 0.8 (((countCorners sq4 35 : ℝ) - 2) * 0.2)
          + (1 - circularityOf 16 16) * 0.3⟩ := by
    unfold classifyTriangle
    simp only []
    have hcond : 3 ≤ countCorners sq4 35 ∧ countCorners sq4 35 ≤ 5 ∧
        circularityOf 16 16 < 0.85 := by
      rw [hcorners, hpi4]
      refine ⟨by norm_num, by norm_num, ?_⟩
      have := Real.pi_lt_315
      linarith
    rw [if_pos hcond]
    have hconfge : ¬ (min 0.8 (((countCorners sq4 35 : ℝ) - 2) * 0.2)
        + (1 - circularityOf 16 16) * 0.3 < 0.3) := by
      rw [hcorners, hpi4]
      have h1 : Real.pi < 3.15 := Real.pi_lt_315
      have h2 : min (0.8:ℝ) (((4:ℕ) - 2 : ℝ) * 0.2) = 0.4 := by
        norm_num
      rw [h2]
      intro habs
      nlinarith
    rw [if_neg hconfge, hbt]
    rw [if_pos (by norm_num)]
  refine ⟨hclass, ?_⟩
  exact C7_triangle_vertices_argmax sq4 16 16 col _ _ hclass

/-! ## Claims C1 and C10: arbitration and tie-breaking -/

lemma insertDesc_ne_nil (c : ShapeCandidate) (l : List ShapeCandidate) :
    insertDesc c l ≠ [] := by
  cases l with
  | nil => simp [insertDesc]
  | cons d ds =>
    unfold insertDesc
    by_cases h : d.confidence > c.confidence
    · simp [h]
    · simp [h]

lemma sortDesc_ne_nil {l : List ShapeCandidate} (h : l ≠ []) :
    sortDesc l ≠ [] := by
  cases l with
  | nil => exact absurd rfl h
  | cons c cs => exact insertDesc_ne_nil c (sortDesc cs)

/-- The head of the stable descending sort is the earliest list element of
maximal confidence: everything strictly before it in the original list has
strictly smaller confidence. -/
lemma sortDesc_headI_spec (l : List ShapeCandidate) (h : l ≠ []) :
    ∃ l1 c l2, l = l1 ++ c :: l2 ∧ (sortDesc l).headI = c ∧
      (∀ d ∈ l, d.confidence ≤ c.confidence) ∧
      ∀ d ∈ l1, d.confidence < c.confidence := by
  induction l with
  | nil => exact absurd rfl h
  | cons a rest ih =>
    by_cases hrest : rest = []
    · subst hrest
      refine ⟨[], a, [], by simp, by simp [sortDesc, insertDesc], ?_, by simp⟩
      intro d hd
      simp at hd
      rw [hd]
    · obtain ⟨l1, c, l2, hdecomp, hhead, hmax, hstrict⟩ := ih hrest
      obtain ⟨tail, htail⟩ : ∃ tail, sortDesc rest = c :: tail := by
        cases hs : sortDesc rest with
        | nil => exact absurd hs (sortDesc_ne_nil hrest)
        | cons x xs =>
          refine ⟨xs, ?_⟩
          rw [hs] at hhead
          rw [show x = c from hhead]
      have hsd : sortDesc (a :: rest) = insertDesc a (c :: tail) := by
        rw [show sortDesc (a :: rest) = insertDesc a (sortDesc rest) from rfl,
          htail]
      by_cases hgt : c.confidence > a.confidence
      · refine ⟨a :: l1, c, l2, by rw [hdecomp]; rfl, ?_, ?_, ?_⟩
        · rw [hsd]
          unfold insertDesc
          rw [if_pos hgt]
          rfl
        · intro d hd
          rcases List.mem_cons.mp hd with rfl | hd'
          · exact le_of_lt hgt
          · exact hmax d hd'
        · intro d hd
          rcases List.mem_cons.mp hd with rfl | hd'
          · exact hgt
          · exact hstrict d hd'
      · refine ⟨[], a, rest, by simp, ?_, ?_, by simp⟩
        · rw [hsd]
          unfold insertDesc
          rw [if_neg hgt]
          rfl
        · intro d hd
          rcases List.mem_cons.mp hd with rfl | hd'
          · exact le_refl _
          · exact le_trans (hmax d hd') (le_of_not_lt hgt)

lemma mem_survivors_iff {s : List Point} {c : String} {d : ShapeCandidate} :
    d ∈ survivorsOf s c ↔ d ∈ candidatesOf s c ∧ d.confidence > 0.4 := by
  unfold survivorsOf
  rw [List.mem_filter, decide_eq_true_iff]

/-- C1: whenever the simplified closed path has at least 3 points,
`recognize` arbitrates over the rectangle/circle/triangle candidate list:
any candidate with confidence below the 0.4 floor is discarded, the shape
of a maximal-confidence surviving candidate is returned, and if no
candidate survives the result is `Freeform` over the simplified polygon. -/
theorem C1_recognize_arbitration (s : List Point) (c : String)
    (h3 : 3 ≤ (simplifiedOf s).length) :
    (∀ d ∈ candidatesOf s c, d.confidence < 0.4 → d ∉ survivorsOf s c) ∧
    (survivorsOf s c = [] → recognize s c = .free (simplifiedOf s) c) ∧
    (survivorsOf s c ≠ [] →
      ∃ cand ∈ survivorsOf s c, recognize s c = cand.shape ∧
        ∀ d ∈ survivorsOf s c, d.confidence ≤ cand.confidence) := by
  refine ⟨?_, ?_, ?_⟩
  · intro d _ hlow hmem
    have := (mem_survivors_iff.mp hmem).2
    linarith
  · intro hempty
    unfold recognize
    rw [if_neg (by omega), hempty]
    simp
  · intro hne
    obtain ⟨l1, cand, l2, hdecomp, hhead, hmax, _⟩ :=
      sortDesc_headI_spec (survivorsOf s c) hne
    refine ⟨cand, by rw [hdecomp]; simp, ?_, hmax⟩
    unfold recognize
    rw [if_neg (by omega), if_pos (by
      rw [hdecomp]
      simp)]
    rw [hhead]

/-- C10: with at least 3 simplified points and a non-empty survivor list,
the returned shape is that of the earliest maximal-confidence survivor in
the fixed construction order rectangle, circle, triangle: every survivor
preceding the selected one has strictly smaller confidence (the
descending-confidence sort is stable). -/
theorem C10_tie_break_first_of_equals (s : List Point) (c : String)
    (h3 : 3 ≤ (simplifiedOf s).length) (hne : survivorsOf s c ≠ []) :
    ∃ l1 cand l2, survivorsOf s c = l1 ++ cand :: l2 ∧
      recognize s c = cand.shape ∧
      (∀ d ∈ survivorsOf s c, d.confidence ≤ cand.confidence) ∧
      ∀ d ∈ l1, d.confidence < cand.confidence := by
  obtain ⟨l1, cand, l2, hdecomp, hhead, hmax, hstrict⟩ :=
    sortDesc_headI_spec (survivorsOf s c) hne
  refine ⟨l1, cand, l2, hdecomp, ?_, hmax, hstrict⟩
  unfold recognize
  rw [if_neg (by omega), if_pos (by
    rw [hdecomp]
    simp)]
  rw [hhead]

/-! ## A concrete near-square stroke and its full pipeline evaluation -/

/-- A 5-point stroke tracing a 20x20 square whose endpoints are 4 apart
(so `ensureClosed` keeps it as drawn). -/
def strokeA : List Point := [(0, 0), (20, 0), (20, 20), (0, 20), (0, 4)]

lemma sqrt416_pos : 0 < Real.sqrt 416 := Real.sqrt_pos.mpr (by norm_num)

lemma sqrt416_lt : Real.sqrt 416 < 21 :=
  (Real.sqrt_lt' (by norm_num)).mpr (by norm_num)

lemma sqrt656_pos : 0 < Real.sqrt 656 := Real.sqrt_pos.mpr (by norm_num)

lemma sqrt656_lt : Real.sqrt 656 < 26 :=
  (Real.sqrt_lt' (by norm_num)).mpr (by norm_num)

lemma strokeA_ends : hypot (strokeA.headI.1 - strokeA.getLastI.1)
    (strokeA.headI.2 - strokeA.getLastI.2) = 4 := by
  rw [show strokeA.headI = ((0:ℝ), (0:ℝ)) from rfl,
    show strokeA.getLastI = ((0:ℝ), (4:ℝ)) from rfl]
  exact hypot_eval (by norm_num) (by norm_num)

lemma strokeA_rawClosed : rawClosedOf strokeA = strokeA := by
  unfold rawClosedOf ensureClosed
  rw [if_neg (by norm_num [strokeA]), if_pos (by rw [strokeA_ends]; norm_num)]

lemma strokeA_bbox : bbox strokeA = ⟨0, 0, 20, 20, 20, 20⟩ := by
  unfold bbox listMin listMax
  simp only [strokeA, List.map_cons, List.map_nil, List.foldl_cons,
    List.foldl_nil]
  have hmin : min (min (min (min (0:ℝ) 20) 20) 0) 0 = 0 := by
    norm_num
  have hmax2 : max (max (max (max (0:ℝ) 20) 20) 0) 0 = 20 := by
    norm_num
  have hminy : min (min (min (min (0:ℝ) 0) 20) 20) 4 = 0 := by
    norm_num
  have hmaxy : max (max (max (max (0:ℝ) 0) 20) 20) 4 = 20 := by
    norm_num
  rw [hmin, hmax2, hminy, hmaxy]
  norm_num

lemma strokeA_eps : epsOf strokeA = 3 := by
  unfold epsOf
  rw [strokeA_rawClosed, strokeA_bbox]
  show max 3 (hypot 20 20 * 0.01) = 3
  rw [show hypot (20:ℝ) 20 = Real.sqrt 800 by unfold hypot; norm_num]
  have hlt : Real.sqrt 800 < 30 := (Real.sqrt_lt' (by norm_num)).mpr (by norm_num)
  rw [max_eq_left (by nlinarith [Real.sqrt_nonneg (800:ℝ)])]

lemma perpDistA0 :
    perpDist ((0:ℝ), (0:ℝ)) ((0:ℝ), (4:ℝ)) ((20:ℝ), (0:ℝ)) = 20 ∧
    perpDist ((0:ℝ), (0:ℝ)) ((0:ℝ), (4:ℝ)) ((20:ℝ), (20:ℝ)) = 20 ∧
    perpDist ((0:ℝ), (0:ℝ)) ((0:ℝ), (4:ℝ)) ((0:ℝ), (20:ℝ)) = 0 := by
  have hden : hypot ((4:ℝ) - 0) ((0:ℝ) - 0) = 4 :=
    hypot_eval (by norm_num) (by norm_num)
  refine ⟨?_, ?_, ?_⟩ <;>
  · unfold perpDist perpNum perpDen
    rw [show ((0:ℝ), (4:ℝ)).2 - ((0:ℝ), (0:ℝ)).2 = (4:ℝ) - 0 from by norm_num,
      show ((0:ℝ), (4:ℝ)).1 - ((0:ℝ), (0:ℝ)).1 = (0:ℝ) - 0 from by norm_num,
      hden]
    norm_num

lemma rdpA0_scan : rdpScan strokeA = (20, 1) := by
  unfold rdpScan
  rw [show interiorIdx strokeA
    = [(1, ((20:ℝ), (0:ℝ))), (2, ((20:ℝ), (20:ℝ))), (3, ((0:ℝ), (20:ℝ)))]
    from rfl]
  simp only [List.foldl_cons, List.foldl_nil,
    show strokeA.headI = ((0:ℝ), (0:ℝ)) from rfl,
    show strokeA.getLastI = ((0:ℝ), (4:ℝ)) from rfl]
  rw [perpDistA0.1, perpDistA0.2.1, perpDistA0.2.2]
  norm_num

lemma rdpA0_dist : rdpDistance strokeA = 20 := by
  unfold rdpDistance
  rw [if_neg (by norm_num [strokeA])]
  rw [show interiorPts strokeA
    = [((20:ℝ), (0:ℝ)), ((20:ℝ), (20:ℝ)), ((0:ℝ), (20:ℝ))] from rfl]
  simp only [List.foldl_cons, List.foldl_nil,
    show strokeA.headI = ((0:ℝ), (0:ℝ)) from rfl,
    show strokeA.getLastI = ((0:ℝ), (4:ℝ)) from rfl]
  rw [perpDistA0.1, perpDistA0.2.1, perpDistA0.2.2]
  norm_num

lemma perpDistA1 :
    perpDist ((20:ℝ), (0:ℝ)) ((0:ℝ), (4:ℝ)) ((20:ℝ), (20:ℝ))
      = 400 / Real.sqrt 416 ∧
    perpDist ((20:ℝ), (0:ℝ)) ((0:ℝ), (4:ℝ)) ((0:ℝ), (20:ℝ))
      = 320 / Real.sqrt 416 := by
  have hden : hypot ((4:ℝ) - 0) ((0:ℝ) - 20) = Real.sqrt 416 := by
    unfold hypot
    norm_num
  constructor <;>
  · unfold perpDist perpNum perpDen
    rw [show ((0:ℝ), (4:ℝ)).2 - ((20:ℝ), (0:ℝ)).2 = (4:ℝ) - 0 from by norm_num,
      show ((0:ℝ), (4:ℝ)).1 - ((20:ℝ), (0:ℝ)).1 = (0:ℝ) - 20 from by norm_num,
      hden, if_neg (ne_of_gt sqrt416_pos)]
    norm_num

lemma rdpA1_scan :
    rdpScan [((20:ℝ), (0:ℝ)), ((20:ℝ), (20:ℝ)), ((0:ℝ), (20:ℝ)),
      ((0:ℝ), (4:ℝ))] = (400 / Real.sqrt 416, 1) := by
  unfold rdpScan
  rw [show interiorIdx [((20:ℝ), (0:ℝ)), ((20:ℝ), (20:ℝ)), ((0:ℝ), (20:ℝ)),
      ((0:ℝ), (4:ℝ))]
    = [(1, ((20:ℝ), (20:ℝ))), (2, ((0:ℝ), (20:ℝ)))] from rfl]
  simp only [List.foldl_cons, List.foldl_nil]
  rw [show ([((20:ℝ), (0:ℝ)), ((20:ℝ), (20:ℝ)), ((0:ℝ), (20:ℝ)),
      ((0:ℝ), (4:ℝ))] : List Point).headI = ((20:ℝ), (0:ℝ)) from rfl,
    show ([((20:ℝ), (0:ℝ)), ((20:ℝ), (20:ℝ)), ((0:ℝ), (20:ℝ)),
      ((0:ℝ), (4:ℝ))] : List Point).getLastI = ((0:ℝ), (4:ℝ)) from rfl]
  rw [perpDistA1.1, perpDistA1.2]
  have hpos1 : (400:ℝ) / Real.sqrt 416 > -1 := by
    have h0 : (0:ℝ) ≤ 400 / Real.sqrt 416 := by positivity
    linarith
  have hneg2 : ¬ ((320:ℝ) / Real.sqrt 416 > 400 / Real.sqrt 416) := by
    intro habs
    rw [gt_iff_lt, div_lt_div_iff sqrt416_pos sqrt416_pos] at habs
    nlinarith [sqrt416_pos]
  rw [if_pos hpos1, if_neg hneg2]
  norm_num

lemma rdpA1_dist :
    rdpDistance [((20:ℝ), (0:ℝ)), ((20:ℝ), (20:ℝ)), ((0:ℝ), (20:ℝ)),
      ((0:ℝ), (4:ℝ))] = 400 / Real.sqrt 416 := by
  unfold rdpDistance
  rw [if_neg (by norm_num)]
  rw [show interiorPts [((20:ℝ), (0:ℝ)), ((20:ℝ), (20:ℝ)), ((0:ℝ), (20:ℝ)),
      ((0:ℝ), (4:ℝ))] = [((20:ℝ), (20:ℝ)), ((0:ℝ), (20:ℝ))] from rfl]
  simp only [List.foldl_cons, List.foldl_nil]
  rw [show ([((20:ℝ), (0:ℝ)), ((20:ℝ), (20:ℝ)), ((0:ℝ), (20:ℝ)),
      ((0:ℝ), (4:ℝ))] : List Point).headI = ((20:ℝ), (0:ℝ)) from rfl,
    show ([((20:ℝ), (0:ℝ)), ((20:ℝ), (20:ℝ)), ((0:ℝ), (20:ℝ)),
      ((0:ℝ), (4:ℝ))] : List Point).getLastI = ((0:ℝ), (4:ℝ)) from rfl]
  rw [perpDistA1.1, perpDistA1.2]
  rw [show max (0:ℝ) (400 / Real.sqrt 416) = 400 / Real.sqrt 416 from
    max_eq_right (by positivity)]
  rw [max_eq_left (by
    rw [div_le_div_iff sqrt416_pos sqrt416_pos]
    nlinarith [sqrt416_pos])]

lemma perpDistA2 :
    perpDist ((20:ℝ), (20:ℝ)) ((0:ℝ), (4:ℝ)) ((0:ℝ), (20:ℝ))
      = 320 / Real.sqrt 656 := by
  have hden : hypot ((4:ℝ) - 20) ((0:ℝ) - 20) = Real.sqrt 656 := by
    unfold hypot
    norm_num
  unfold perpDist perpNum perpDen
  rw [show ((0:ℝ), (4:ℝ)).2 - ((20:ℝ), (20:ℝ)).2 = (4:ℝ) - 20 from by norm_num,
    show ((0:ℝ), (4:ℝ)).1 - ((20:ℝ), (20:ℝ)).1 = (0:ℝ) - 20 from by norm_num,
    hden, if_neg (ne_of_gt sqrt656_pos)]
  norm_num

lemma rdpA2_scan :
    rdpScan [((20:ℝ), (20:ℝ)), ((0:ℝ), (20:ℝ)), ((0:ℝ), (4:ℝ))]
      = (320 / Real.sqrt 656, 1) := by
  unfold rdpScan
  rw [show interiorIdx [((20:ℝ), (20:ℝ)), ((0:ℝ), (20:ℝ)), ((0:ℝ), (4:ℝ))]
    = [(1, ((0:ℝ), (20:ℝ)))] from rfl]
  simp only [List.foldl_cons, List.foldl_nil]
  rw [show ([((20:ℝ), (20:ℝ)), ((0:ℝ), (20:ℝ)), ((0:ℝ), (4:ℝ))] :
      List Point).headI = ((20:ℝ), (20:ℝ)) from rfl,
    show ([((20:ℝ), (20:ℝ)), ((0:ℝ), (20:ℝ)), ((0:ℝ), (4:ℝ))] :
      List Point).getLastI = ((0:ℝ), (4:ℝ)) from rfl]
  rw [perpDistA2]
  rw [if_pos (by
    have h0 : (0:ℝ) ≤ 320 / Real.sqrt 656 := by positivity
    show (320:ℝ) / Real.sqrt 656 > -1
    linarith)]
  norm_num

lemma rdpA2_dist :
    rdpDistance [((20:ℝ), (20:ℝ)), ((0:ℝ), (20:ℝ)), ((0:ℝ), (4:ℝ))]
      = 320 / Real.sqrt 656 := by
  unfold rdpDistance
  rw [if_neg (by norm_num)]
  rw [show interiorPts [((20:ℝ), (20:ℝ)), ((0:ℝ), (20:ℝ)), ((0:ℝ), (4:ℝ))]
    = [((0:ℝ), (20:ℝ))] from rfl]
  simp only [List.foldl_cons, List.foldl_nil]
  rw [show ([((20:ℝ), (20:ℝ)), ((0:ℝ), (20:ℝ)), ((0:ℝ), (4:ℝ))] :
      List Point).headI = ((20:ℝ), (20:ℝ)) from rfl,
    show ([((20:ℝ), (20:ℝ)), ((0:ℝ), (20:ℝ)), ((0:ℝ), (4:ℝ))] :
      List Point).getLastI = ((0:ℝ), (4:ℝ)) from rfl]
  rw [perpDistA2]
  rw [max_eq_right (by positivity)]

lemma rdpA2 :
    rdp [((20:ℝ), (20:ℝ)), ((0:ℝ), (20:ℝ)), ((0:ℝ), (4:ℝ))] 3
      = [((20:ℝ), (20:ℝ)), ((0:ℝ), (20:ℝ)), ((0:ℝ), (4:ℝ))] := by
  have hge : (3:ℝ) * Real.sqrt 656 ≤ 320 := by
    nlinarith [sqrt656_lt, sqrt656_pos]
  rw [rdp_eq_branch (by norm_num)
    (by
      rw [rdpA2_dist, not_lt, le_div_iff sqrt656_pos]
      linarith)
    (by
      rw [rdpA2_scan]
      refine ⟨by
        show (3:ℝ) < 320 / Real.sqrt 656
        rw [lt_div_iff sqrt656_pos]
        nlinarith [sqrt656_lt, sqrt656_pos], by norm_num⟩)]
  rw [rdpA2_scan]
  show (rdp [((20:ℝ), (20:ℝ)), ((0:ℝ), (20:ℝ))] 3).dropLast
    ++ rdp [((0:ℝ), (20:ℝ)), ((0:ℝ), (4:ℝ))] 3 = _
  rw [rdp_short (by norm_num), rdp_short (by norm_num)]
  rfl

lemma rdpA1 :
    rdp [((20:ℝ), (0:ℝ)), ((20:ℝ), (20:ℝ)), ((0:ℝ), (20:ℝ)),
      ((0:ℝ), (4:ℝ))] 3
      = [((20:ℝ), (0:ℝ)), ((20:ℝ), (20:ℝ)), ((0:ℝ), (20:ℝ)),
        ((0:ℝ), (4:ℝ))] := by
  rw [rdp_eq_branch (by norm_num)
    (by
      rw [rdpA1_dist, not_lt, le_div_iff sqrt416_pos]
      nlinarith [sqrt416_lt, sqrt416_pos])
    (by
      rw [rdpA1_scan]
      refine ⟨by
        show (3:ℝ) < 400 / Real.sqrt 416
        rw [lt_div_iff sqrt416_pos]
        nlinarith [sqrt416_lt, sqrt416_pos], by norm_num⟩)]
  rw [rdpA1_scan]
  show (rdp [((20:ℝ), (0:ℝ)), ((20:ℝ), (20:ℝ))] 3).dropLast
    ++ rdp [((20:ℝ), (20:ℝ)), ((0:ℝ), (20:ℝ)), ((0:ℝ), (4:ℝ))] 3 = _
  rw [rdp_short (by norm_num), rdpA2]
  rfl

lemma strokeA_simplified : simplifiedOf strokeA = strokeA := by
  unfold simplifiedOf
  rw [strokeA_rawClosed, strokeA_eps]
  rw [rdp_eq_branch (by norm_num [strokeA])
    (by rw [rdpA0_dist]; norm_num)
    (by rw [rdpA0_scan]; norm_num)]
  rw [rdpA0_scan]
  show (rdp (strokeA.take 2) 3).dropLast ++ rdp (strokeA.drop 1) 3 = _
  rw [show strokeA.take 2 = [((0:ℝ), (0:ℝ)), ((20:ℝ), (0:ℝ))] from rfl,
    show strokeA.drop 1 = [((20:ℝ), (0:ℝ)), ((20:ℝ), (20:ℝ)),
      ((0:ℝ), (20:ℝ)), ((0:ℝ), (4:ℝ))] from rfl]
  rw [rdp_short (by norm_num), rdpA1]
  rfl

lemma strokeA_pathLen : pathLen strokeA = 76 := by
  have e1 : euclid ((0:ℝ), (0:ℝ)) ((20:ℝ), (0:ℝ)) = 20 := by
    unfold euclid
    exact hypot_eval (by norm_num) (by norm_num)
  have e2 : euclid ((20:ℝ), (0:ℝ)) ((20:ℝ), (20:ℝ)) = 20 := by
    unfold euclid
    exact hypot_eval (by norm_num) (by norm_num)
  have e3 : euclid ((20:ℝ), (20:ℝ)) ((0:ℝ), (20:ℝ)) = 20 := by
    unfold euclid
    exact hypot_eval (by norm_num) (by norm_num)
  have e4 : euclid ((0:ℝ), (20:ℝ)) ((0:ℝ), (4:ℝ)) = 16 := by
    unfold euclid
    exact hypot_eval (by norm_num) (by norm_num)
  show pathLen [((0:ℝ), (0:ℝ)), ((20:ℝ), (0:ℝ)), ((20:ℝ), (20:ℝ)),
    ((0:ℝ), (20:ℝ)), ((0:ℝ), (4:ℝ))] = 76
  rw [pathLen, pathLen, pathLen, pathLen, pathLen]
  rw [e1, e2, e3, e4]
  norm_num

lemma strokeA_perim : polygonPerimeter strokeA = 76 := by
  rw [polygonPerimeter_eq_pathLen, strokeA_pathLen]

lemma strokeA_area : polygonArea strokeA = 400 := by
  unfold polygonArea polygonShoelace
  rw [show strokeA.length = 5 from rfl, show List.range 5 = [0, 1, 2, 3, 4]
    from rfl]
  simp only [List.foldl_cons, List.foldl_nil]
  norm_num [show strokeA.getD 0 pt0 = ((0:ℝ), (0:ℝ)) from rfl,
    show strokeA.getD 1 pt0 = ((20:ℝ), (0:ℝ)) from rfl,
    show strokeA.getD 2 pt0 = ((20:ℝ), (20:ℝ)) from rfl,
    show strokeA.getD 3 pt0 = ((0:ℝ), (20:ℝ)) from rfl,
    show strokeA.getD 4 pt0 = ((0:ℝ), (4:ℝ)) from rfl,
    show strokeA[(0:ℕ)] = ((0:ℝ), (0:ℝ)) from rfl,
    show strokeA[(1:ℕ)] = ((20:ℝ), (0:ℝ)) from rfl,
    show strokeA[(2:ℕ)] = ((20:ℝ), (20:ℝ)) from rfl,
    show strokeA[(3:ℕ)] = ((0:ℝ), (20:ℝ)) from rfl,
    show strokeA[(4:ℕ)] = ((0:ℝ), (4:ℝ)) from rfl,
    show strokeA.length = 5 from rfl]

lemma strokeA_closed : pathClosed strokeA = true := by
  unfold pathClosed
  rw [if_neg (by norm_num [strokeA])]
  rw [decide_eq_true_iff, pathClosedPerim_eq_pathLen, strokeA_pathLen,
    strokeA_ends]
  rw [max_eq_left (by norm_num)]
  norm_num

/-- The circularity `4πA/P²` of the simplified strokeA polygon. -/
lemma strokeA_circ : circularityOf 76 400 = 100 * Real.pi / 361 := by
  unfold circularityOf perimGuard
  rw [if_neg (by norm_num)]
  ring

lemma strokeA_rectCand :
    classifyRectangle strokeA strokeA 76 400 20 20 col
      = ⟨.rect 0 0 20 20 col, 0.8 + (1 - 100 * Real.pi / 361) * 0.2⟩ := by
  unfold classifyRectangle
  simp only [strokeA_circ, strokeA_bbox]
  rw [show (400:ℝ) / max 1 (20 * 20) = 1 from by norm_num]
  rw [show (if (20:ℝ) = 0 then (1:ℝ) else (20:ℝ)) = 20 from if_neg
    (by norm_num)]
  rw [if_pos (show |(20:ℝ) / 20 - 1| < 0.2 from by norm_num)]
  rw [if_neg (show ¬ ((1:ℝ) < 0.6 ∨ 100 * Real.pi / 361 > 0.9) from by
    push_neg
    refine ⟨by norm_num, ?_⟩
    have := Real.pi_lt_315
    nlinarith)]
  have hmin : min (20:ℝ) 20 = 20 := min_self 20
  rw [hmin]
  norm_num

lemma strokeA_fitCircle : fitCircle strokeA = none := by
  unfold fitCircle
  rw [if_pos (by norm_num [strokeA])]

lemma strokeA_circCand :
    classifyCircle strokeA strokeA 76 400 20 20 true col
      = ⟨.circle 10 10 10 col, 100 * Real.pi / 361 * 0.9⟩ := by
  unfold classifyCircle
  rw [if_neg (by
    push_neg
    refine ⟨by simp, by norm_num⟩)]
  simp only [strokeA_circ, strokeA_bbox, strokeA_fitCircle]
  rw [if_neg (by
    have := Real.pi_gt_3141592
    intro habs
    nlinarith)]
  norm_num

lemma strokeA_triCand :
    classifyTriangle strokeA 76 400 col = ⟨.free strokeA col, 0⟩ := by
  unfold classifyTriangle
  simp only [strokeA_circ]
  rw [if_neg (show ¬ (3 ≤ countCorners strokeA 35 ∧
      countCorners strokeA 35 ≤ 5 ∧ 100 * Real.pi / 361 < 0.85) from by
    rintro ⟨-, -, habs⟩
    have := Real.pi_gt_3141592
    nlinarith)]
  rw [if_pos (show (0:ℝ) < 0.3 from by norm_num)]

lemma strokeA_candidates :
    candidatesOf strokeA col
      = [⟨.rect 0 0 20 20 col, 0.8 + (1 - 100 * Real.pi / 361) * 0.2⟩,
        ⟨.circle 10 10 10 col, 100 * Real.pi / 361 * 0.9⟩,
        ⟨.free strokeA col, 0⟩] := by
  unfold candidatesOf
  simp only [strokeA_rawClosed, strokeA_simplified, strokeA_bbox,
    strokeA_perim, strokeA_area, strokeA_closed]
  rw [strokeA_rectCand, strokeA_circCand, strokeA_triCand]

lemma strokeA_survivors :
    survivorsOf strokeA col
      = [⟨.rect 0 0 20 20 col, 0.8 + (1 - 100 * Real.pi / 361) * 0.2⟩,
        ⟨.circle 10 10 10 col, 100 * Real.pi / 361 * 0.9⟩] := by
  unfold survivorsOf
  rw [strokeA_candidates]
  have hrect : ((0.8:ℝ) + (1 - 100 * Real.pi / 361) * 0.2) > 0.4 := by
    have := Real.pi_lt_315
    nlinarith
  have hcirc : (100 * Real.pi / 361 * 0.9 : ℝ) > 0.4 := by
    have := Real.pi_gt_3141592
    nlinarith
  rw [List.filter_cons, List.filter_cons, List.filter_cons, List.filter_nil]
  rw [show (decide ((⟨.rect 0 0 20 20 col,
      0.8 + (1 - 100 * Real.pi / 361) * 0.2⟩ : ShapeCandidate).confidence
      > 0.4)) = true from decide_eq_true hrect]
  rw [show (decide ((⟨.circle 10 10 10 col,
      100 * Real.pi / 361 * 0.9⟩ : ShapeCandidate).confidence
      > 0.4)) = true from decide_eq_true hcirc]
  rw [show (decide ((⟨.free strokeA col, 0⟩ : ShapeCandidate).confidence
      > 0.4)) = false from decide_eq_false (by norm_num)]
  rfl

lemma strokeA_sorted :
    sortDesc [⟨.rect 0 0 20 20 col, 0.8 + (1 - 100 * Real.pi / 361) * 0.2⟩,
        ⟨.circle 10 10 10 col, 100 * Real.pi / 361 * 0.9⟩]
      = [⟨.rect 0 0 20 20 col, 0.8 + (1 - 100 * Real.pi / 361) * 0.2⟩,
        ⟨.circle 10 10 10 col, 100 * Real.pi / 361 * 0.9⟩] := by
  show insertDesc _ (insertDesc _ (sortDesc [])) = _
  rw [show sortDesc ([] : List ShapeCandidate) = [] from rfl]
  rw [show insertDesc (⟨.circle 10 10 10 col,
      100 * Real.pi / 361 * 0.9⟩ : ShapeCandidate) []
    = [⟨.circle 10 10 10 col, 100 * Real.pi / 361 * 0.9⟩] from rfl]
  unfold insertDesc
  rw [if_neg (by
    show ¬ ((⟨.circle 10 10 10 col,
      100 * Real.pi / 361 * 0.9⟩ : ShapeCandidate).confidence
      > (⟨.rect 0 0 20 20 col,
        0.8 + (1 - 100 * Real.pi / 361) * 0.2⟩ : ShapeCandidate).confidence)
    show ¬ (100 * Real.pi / 361 * 0.9 > 0.8 + (1 - 100 * Real.pi / 361) * 0.2)
    have := Real.pi_lt_315
    intro habs
    nlinarith)]

lemma strokeA_recognize : recognize strokeA col = .rect 0 0 20 20 col := by
  unfold recognize
  rw [if_neg (by rw [strokeA_simplified]; norm_num [strokeA])]
  rw [if_pos (by rw [strokeA_survivors]; norm_num)]
  rw [strokeA_survivors, strokeA_sorted]
  rfl

/-- Witness for C1 at the stroke `strokeA`, whose simplified path keeps all
5 points. -/
theorem C1_witness :
    3 ≤ (simplifiedOf strokeA).length ∧
      ((∀ d ∈ candidatesOf strokeA col, d.confidence < 0.4 →
          d ∉ survivorsOf strokeA col) ∧
       (survivorsOf strokeA col = [] →
          recognize strokeA col = .free (simplifiedOf strokeA) col) ∧
       (survivorsOf strokeA col ≠ [] →
          ∃ cand ∈ survivorsOf strokeA col, recognize strokeA col = cand.shape ∧
            ∀ d ∈ survivorsOf strokeA col,
              d.confidence ≤ cand.confidence)) := by
  have h3 : 3 ≤ (simplifiedOf strokeA).length := by
    rw [strokeA_simplified]
    norm_num [strokeA]
  exact ⟨h3, C1_recognize_arbitration strokeA col h3⟩

/-- Witness for C10 at the stroke `strokeA`, which has two surviving
candidates (rectangle before circle). -/
theorem C10_witness :
    3 ≤ (simplifiedOf strokeA).length ∧ survivorsOf strokeA col ≠ [] ∧
      ∃ l1 cand l2, survivorsOf strokeA col = l1 ++ cand :: l2 ∧
        recognize strokeA col = cand.shape ∧
        (∀ d ∈ survivorsOf strokeA col,
          d.confidence ≤ cand.confidence) ∧
        ∀ d ∈ l1, d.confidence < cand.confidence := by
  have h3 : 3 ≤ (simplifiedOf strokeA).length := by
    rw [strokeA_simplified]
    norm_num [strokeA]
  have hne : survivorsOf strokeA col ≠ [] := by
    rw [strokeA_survivors]
    simp
  exact ⟨h3, hne, C10_tie_break_first_of_equals strokeA col h3 hne⟩

/-! ## Claim C9: scale invariance -/

/-- `strokeA` scaled by `k = 1/10`: a 2x2 square stroke. -/
def strokeB : List Point := [(0, 0), (2, 0), (2, 2), (0, 2), (0, 0.4)]

lemma strokeB_ends : hypot (strokeB.headI.1 - strokeB.getLastI.1)
    (strokeB.headI.2 - strokeB.getLastI.2) = 0.4 := by
  rw [show strokeB.headI = ((0:ℝ), (0:ℝ)) from rfl,
    show strokeB.getLastI = ((0:ℝ), (0.4:ℝ)) from rfl]
  exact hypot_eval (by norm_num) (by norm_num)

lemma strokeB_rawClosed : rawClosedOf strokeB = strokeB := by
  unfold rawClosedOf ensureClosed
  rw [if_neg (by norm_num [strokeB]), if_pos (by rw [strokeB_ends]; norm_num)]

lemma strokeB_bbox : bbox strokeB = ⟨0, 0, 2, 2, 2, 2⟩ := by
  unfold bbox listMin listMax
  simp only [strokeB, List.map_cons, List.map_nil, List.foldl_cons,
    List.foldl_nil]
  have hmin : min (min (min (min (0:ℝ) 2) 2) 0) 0 = 0 := by norm_num
  have hmax2 : max (max (max (max (0:ℝ) 2) 2) 0) 0 = 2 := by norm_num
  have hminy : min (min (min (min (0:ℝ) 0) 2) 2) 0.4 = 0 := by norm_num
  have hmaxy : max (max (max (max (0:ℝ) 0) 2) 2) 0.4 = 2 := by norm_num
  rw [hmin, hmax2, hminy, hmaxy]
  norm_num

lemma strokeB_eps : epsOf strokeB = 3 := by
  unfold epsOf
  rw [strokeB_rawClosed, strokeB_bbox]
  show max 3 (hypot 2 2 * 0.01) = 3
  rw [show hypot (2:ℝ) 2 = Real.sqrt 8 by unfold hypot; norm_num]
  have hlt : Real.sqrt 8 < 3 := (Real.sqrt_lt' (by norm_num)).mpr (by norm_num)
  rw [max_eq_left (by nlinarith [Real.sqrt_nonneg (8:ℝ)])]

lemma perpDistB0 :
    perpDist ((0:ℝ), (0:ℝ)) ((0:ℝ), (0.4:ℝ)) ((2:ℝ), (0:ℝ)) = 2 ∧
    perpDist ((0:ℝ), (0:ℝ)) ((0:ℝ), (0.4:ℝ)) ((2:ℝ), (2:ℝ)) = 2 ∧
    perpDist ((0:ℝ), (0:ℝ)) ((0:ℝ), (0.4:ℝ)) ((0:ℝ), (2:ℝ)) = 0 := by
  have hden : hypot ((0.4:ℝ) - 0) ((0:ℝ) - 0) = 0.4 :=
    hypot_eval (by norm_num) (by norm_num)
  refine ⟨?_, ?_, ?_⟩ <;>
  · unfold perpDist perpNum perpDen
    rw [show ((0:ℝ), (0.4:ℝ)).2 - ((0:ℝ), (0:ℝ)).2 = (0.4:ℝ) - 0 from
        by norm_num,
      show ((0:ℝ), (0.4:ℝ)).1 - ((0:ℝ), (0:ℝ)).1 = (0:ℝ) - 0 from by norm_num,
      hden]
    rw [abs_of_nonneg (by norm_num)]
    norm_num

lemma strokeB_rdpDist : rdpDistance strokeB = 2 := by
  unfold rdpDistance
  rw [if_neg (by norm_num [strokeB])]
  rw [show interiorPts strokeB
    = [((2:ℝ), (0:ℝ)), ((2:ℝ), (2:ℝ)), ((0:ℝ), (2:ℝ))] from rfl]
  simp only [List.foldl_cons, List.foldl_nil,
    show strokeB.headI = ((0:ℝ), (0:ℝ)) from rfl,
    show strokeB.getLastI = ((0:ℝ), (0.4:ℝ)) from rfl]
  rw [perpDistB0.1, perpDistB0.2.1, perpDistB0.2.2]
  norm_num

lemma strokeB_simplified :
    simplifiedOf strokeB = [((0:ℝ), (0:ℝ)), ((0:ℝ), (0.4:ℝ))] := by
  unfold simplifiedOf
  rw [strokeB_rawClosed, strokeB_eps]
  rw [rdp_eq_of_lt (by norm_num [strokeB]) (by rw [strokeB_rdpDist]; norm_num)]
  rfl

lemma strokeB_recognize : recognize strokeB col = .free strokeB col := by
  unfold recognize
  rw [if_pos (by rw [strokeB_simplified]; norm_num)]
  rw [strokeB_rawClosed]

/-- C9 counterexample: scaling the stroke `strokeA` by `k = 1/10` changes
the classified variant from `Rectangle` to `Freeform`, because the
simplification epsilon has the absolute floor `max(3, …)`, so the claim's
scale invariance of the variant fails. -/
theorem C9_counterexample :
    recognize strokeA col = .rect 0 0 20 20 col ∧
    recognize (strokeA.map (scalePt (1 / 10))) col
      = .free (strokeA.map (scalePt (1 / 10))) col ∧
    shapeKind (recognize (strokeA.map (scalePt (1 / 10))) col)
      ≠ shapeKind (recognize strokeA col) := by
  have hmap : strokeA.map (scalePt (1 / 10)) = strokeB := by
    norm_num [strokeA, strokeB, scalePt]
  rw [hmap, strokeA_recognize, strokeB_recognize]
  exact ⟨rfl, rfl, by norm_num [shapeKind]⟩

lemma hypot_eq_zero_iff {a b : ℝ} : hypot a b = 0 ↔ a = 0 ∧ b = 0 := by
  constructor
  · intro h
    have harg : a ^ 2 + b ^ 2 ≤ 0 := Real.sqrt_eq_zero'.mp h
    constructor <;> nlinarith [sq_nonneg a, sq_nonneg b]
  · rintro ⟨rfl, rfl⟩
    unfold hypot
    simp

lemma hypot_scale {k : ℝ} (hk : 0 ≤ k) (a b : ℝ) :
    hypot (k * a) (k * b) = k * hypot a b := by
  unfold hypot
  rw [show (k * a) ^ 2 + (k * b) ^ 2 = k ^ 2 * (a ^ 2 + b ^ 2) by ring,
    Real.sqrt_mul (sq_nonneg k), Real.sqrt_sq hk]

lemma euclid_scale {k : ℝ} (hk : 0 ≤ k) (p q : Point) :
    euclid (scalePt k p) (scalePt k q) = k * euclid p q := by
  unfold euclid scalePt
  show hypot (k * p.1 - k * q.1) (k * p.2 - k * q.2) = _
  rw [show k * p.1 - k * q.1 = k * (p.1 - q.1) by ring,
    show k * p.2 - k * q.2 = k * (p.2 - q.2) by ring]
  exact hypot_scale hk _ _

lemma pathLen_scale {k : ℝ} (hk : 0 ≤ k) :
    ∀ ps : List Point, pathLen (ps.map (scalePt k)) = k * pathLen ps := by
  intro ps
  induction ps with
  | nil => simp [pathLen]
  | cons p tail ih =>
    cases tail with
    | nil => simp [pathLen]
    | cons q r =>
      rw [List.map_cons, List.map_cons]
      rw [show pathLen (scalePt k p :: scalePt k q :: r.map (scalePt k))
          = euclid (scalePt k p) (scalePt k q)
            + pathLen (scalePt k q :: r.map (scalePt k)) from rfl]
      rw [show pathLen (p :: q :: r) = euclid p q + pathLen (q :: r) from rfl]
      rw [euclid_scale hk]
      rw [show (scalePt k q :: r.map (scalePt k))
        = (q :: r).map (scalePt k) from rfl]
      rw [ih]
      ring

lemma scalePt_pt0 (k : ℝ) : scalePt k pt0 = pt0 := by
  unfold scalePt pt0
  norm_num

lemma getD_map_scale (k : ℝ) (ps : List Point) (i : ℕ) :
    (ps.map (scalePt k)).getD i pt0 = scalePt k (ps.getD i pt0) := by
  rcases lt_or_ge i ps.length with h | h
  · rw [List.getD_eq_getElem?_getD, List.getD_eq_getElem?_getD,
      List.getElem?_map, List.getElem?_eq_getElem h]
    rfl
  · rw [List.getD_eq_getElem?_getD, List.getD_eq_getElem?_getD,
      List.getElem?_map, List.getElem?_eq_none (by omega)]
    simp [scalePt_pt0]

lemma foldl_add_eq_sum (f : ℕ → ℝ) :
    ∀ (l : List ℕ) (a : ℝ),
      l.foldl (fun acc i => acc + f i) a = a + (l.map f).sum := by
  intro l
  induction l with
  | nil => intro a; simp
  | cons x t ih =>
    intro a
    rw [List.foldl_cons, ih, List.map_cons, List.sum_cons]
    ring

lemma polygonShoelace_scale {k : ℝ} (ps : List Point) :
    polygonShoelace (ps.map (scalePt k)) = k ^ 2 * polygonShoelace ps := by
  unfold polygonShoelace
  rw [List.length_map]
  simp only []
  rw [foldl_add_eq_sum, foldl_add_eq_sum, zero_add, zero_add]
  have hcong : (List.range ps.length).map (fun i =>
      ((ps.map (scalePt k)).getD (if i = 0 then ps.length - 1 else i - 1)
          pt0).1 * ((ps.map (scalePt k)).getD i pt0).2
        - ((ps.map (scalePt k)).getD i pt0).1
          * ((ps.map (scalePt k)).getD (if i = 0 then ps.length - 1 else i - 1)
          pt0).2)
      = (List.range ps.length).map (fun i =>
      k ^ 2 * ((ps.getD (if i = 0 then ps.length - 1 else i - 1) pt0).1
          * (ps.getD i pt0).2
        - (ps.getD i pt0).1
          * (ps.getD (if i = 0 then ps.length - 1 else i - 1) pt0).2)) := by
    apply List.map_congr_left
    intro i _
    rw [getD_map_scale, getD_map_scale]
    unfold scalePt
    show k * _ * (k * _) - k * _ * (k * _) = _
    ring
  rw [hcong]
  exact List.sum_map_mul_left (List.range ps.length) (fun i =>
    ((ps.getD (if i = 0 then ps.length - 1 else i - 1) pt0).1
        * (ps.getD i pt0).2
      - (ps.getD i pt0).1
        * (ps.getD (if i = 0 then ps.length - 1 else i - 1) pt0).2)) (k ^ 2)

/-- The clamped cosine fed to `acos` is invariant under uniform scaling of
both edge vectors by `k > 0`, including through the `|| 1` magnitude
guards. -/
lemma cosArg_scale {k : ℝ} (hk : 0 < k) (v1x v1y v2x v2y : ℝ) :
    (k * v1x * (k * v2x) + k * v1y * (k * v2y))
      / ((if hypot (k * v1x) (k * v1y) = 0 then 1
          else hypot (k * v1x) (k * v1y))
        * (if hypot (k * v2x) (k * v2y) = 0 then 1
          else hypot (k * v2x) (k * v2y)))
    = (v1x * v2x + v1y * v2y)
      / ((if hypot v1x v1y = 0 then 1 else hypot v1x v1y)
        * (if hypot v2x v2y = 0 then 1 else hypot v2x v2y)) := by
  rw [hypot_scale (le_of_lt hk), hypot_scale (le_of_lt hk)]
  have hkne : k ≠ 0 := ne_of_gt hk
  by_cases h1 : hypot v1x v1y = 0
  · obtain ⟨hx, hy⟩ := hypot_eq_zero_iff.mp h1
    rw [hx, hy]
    simp
  · by_cases h2 : hypot v2x v2y = 0
    · obtain ⟨hx, hy⟩ := hypot_eq_zero_iff.mp h2
      rw [hx, hy]
      simp
    · rw [if_neg h1, if_neg h2,
        if_neg (mul_ne_zero hkne h1), if_neg (mul_ne_zero hkne h2)]
      field_simp
      ring

lemma cornerAt_scale {k : ℝ} (hk : 0 < k) (ps : List Point) (i : ℕ) :
    cornerAt (ps.map (scalePt k)) 35 i = cornerAt ps 35 i := by
  unfold cornerAt
  rw [List.length_map]
  simp only []
  rw [getD_map_scale, getD_map_scale, getD_map_scale]
  simp only [show ∀ p q : Point, (scalePt k p).1 - (scalePt k q).1
      = k * (p.1 - q.1) from fun p q => by
    unfold scalePt
    show k * _ - k * _ = _
    ring]
  simp only [show ∀ p q : Point, (scalePt k p).2 - (scalePt k q).2
      = k * (p.2 - q.2) from fun p q => by
    unfold scalePt
    show k * _ - k * _ = _
    ring]
  rw [cosArg_scale hk]

lemma countCorners_scale {k : ℝ} (hk : 0 < k) (ps : List Point) :
    countCorners (ps.map (scalePt k)) 35 = countCorners ps 35 := by
  unfold countCorners
  rw [List.length_map]
  by_cases h3 : ps.length < 3
  · rw [if_pos h3, if_pos h3]
  · rw [if_neg h3, if_neg h3]
    exact List.foldl_ext _ _ 0
      (fun acc i _ => by rw [cornerAt_scale hk])

/-- C9 (amended): the claim's premise that all thresholds are bbox-relative
fails - `recognize` has absolute floors (8px closing tolerance, the
`max(3, …)` simplification epsilon, the `max(10, …)` closure threshold and
the 10px minimum circle size), and `C9_counterexample` shows uniform
scaling can change the classified variant.  What does hold is that the
dimensionless features driving classification scale correctly: corner count
is invariant, the perimeter scales by `k` and the area by `k²`, so
circularity and rectangularity are scale-invariant. -/
theorem C9_scaled_features (k : ℝ) (hk : 0 < k) (ps : List Point) :
    countCorners (ps.map (scalePt k)) 35 = countCorners ps 35 ∧
    polygonPerimeter (ps.map (scalePt k)) = k * polygonPerimeter ps ∧
    polygonArea (ps.map (scalePt k)) = k ^ 2 * polygonArea ps := by
  refine ⟨countCorners_scale hk ps, ?_, ?_⟩
  · rw [polygonPerimeter_eq_pathLen, polygonPerimeter_eq_pathLen,
      pathLen_scale (le_of_lt hk)]
  · unfold polygonArea
    rw [polygonShoelace_scale, abs_mul, abs_of_nonneg (sq_nonneg k)]
    ring

/-- Witness for the amended C9 at `k = 2` on `strokeA`. -/
theorem C9_witness :
    (0:ℝ) < 2 ∧
    (countCorners (strokeA.map (scalePt 2)) 35 = countCorners strokeA 35 ∧
      polygonPerimeter (strokeA.map (scalePt 2)) = 2 * polygonPerimeter strokeA ∧
      polygonArea (strokeA.map (scalePt 2)) = 2 ^ 2 * polygonArea strokeA) :=
  ⟨by norm_num, C9_scaled_features 2 (by norm_num) strokeA⟩

/-! ## Claim C8: output invariants -/

/-- The spec's per-variant invariants: positive rectangle dimensions,
positive circle radius, non-empty freeform point list. -/
def shapeInvariant : DrawnShape → Prop
  | .rect _ _ w h _ => 0 < w ∧ 0 < h
  | .circle _ _ r _ => 0 < r
  | .triangle _ _ => True
  | .free pts _ => pts ≠ []

lemma rawClosedOf_ne_nil {s : List Point} (hs : s ≠ []) :
    rawClosedOf s ≠ [] := by
  unfold rawClosedOf ensureClosed
  by_cases h1 : s.length < 2
  · simpa [h1] using hs
  · rw [if_neg h1]
    by_cases h2 : hypot (s.headI.1 - s.getLastI.1)
        (s.headI.2 - s.getLastI.2) ≤ 8
    · simpa [h2] using hs
    · rw [if_neg h2]
      simp

lemma rdp_sublist (ps : List Point) (ε : ℝ) : (rdp ps ε).Sublist ps := by
  by_cases h2 : ps.length ≤ 2
  · rw [(rdp_structure ps ε).1 h2]
  · exact ((rdp_structure ps ε).2 (by omega)).1

lemma foldl_min_le (t : List ℝ) : ∀ (a : ℝ),
    t.foldl min a ≤ a ∧ ∀ x ∈ t, t.foldl min a ≤ x := by
  induction t with
  | nil => intro a; exact ⟨le_refl _, by simp⟩
  | cons b t' ih =>
    intro a
    rw [List.foldl_cons]
    obtain ⟨h1, h2⟩ := ih (min a b)
    refine ⟨le_trans h1 (min_le_left a b), ?_⟩
    intro x hx
    rcases List.mem_cons.mp hx with rfl | hx'
    · exact le_trans h1 (min_le_right a x)
    · exact h2 x hx'

lemma le_foldl_max (t : List ℝ) : ∀ (a : ℝ),
    a ≤ t.foldl max a ∧ ∀ x ∈ t, x ≤ t.foldl max a := by
  induction t with
  | nil => intro a; exact ⟨le_refl _, by simp⟩
  | cons b t' ih =>
    intro a
    rw [List.foldl_cons]
    obtain ⟨h1, h2⟩ := ih (max a b)
    refine ⟨le_trans (le_max_left a b) h1, ?_⟩
    intro x hx
    rcases List.mem_cons.mp hx with rfl | hx'
    · exact le_trans (le_max_right a x) h1
    · exact h2 x hx'

lemma listMin_le {l : List ℝ} {x : ℝ} (h : x ∈ l) : listMin l ≤ x := by
  cases l with
  | nil => simp at h
  | cons a t =>
    rcases List.mem_cons.mp h with rfl | hx'
    · exact (foldl_min_le t x).1
    · exact (foldl_min_le t a).2 x hx'

lemma le_listMax {l : List ℝ} {x : ℝ} (h : x ∈ l) : x ≤ listMax l := by
  cases l with
  | nil => simp at h
  | cons a t =>
    rcases List.mem_cons.mp h with rfl | hx'
    · exact (le_foldl_max t x).1
    · exact (le_foldl_max t a).2 x hx'

lemma list_sum_map_sub (f g : ℕ → ℝ) :
    ∀ l : List ℕ, (l.map (fun i => f i - g i)).sum
      = (l.map f).sum - (l.map g).sum := by
  intro l
  induction l with
  | nil => simp
  | cons a t ih =>
    simp only [List.map_cons, List.sum_cons, ih]
    ring

/-- The cyclic-predecessor index map is a permutation of `range n`. -/
lemma range_map_pred_perm (n : ℕ) :
    ((List.range n).map (fun i => if i = 0 then n - 1 else i - 1)).Perm
      (List.range n) := by
  cases n with
  | zero => simp
  | succ m =>
    have h1 : (List.range (m + 1)).map
        (fun i => if i = 0 then m + 1 - 1 else i - 1)
        = m :: List.range m := by
      rw [List.range_succ_eq_map, List.map_cons, List.map_map]
      congr 1
      rw [show ((fun i => if i = 0 then m + 1 - 1 else i - 1) ∘ Nat.succ)
          = fun i : ℕ => i from by
        funext i
        simp]
      simp
    rw [h1, List.range_succ]
    exact (List.perm_append_singleton m (List.range m)).symm

/-- If all x coordinates coincide, the shoelace sum telescopes to zero. -/
lemma polygonShoelace_const_x {ps : List Point} {cx : ℝ}
    (h : ∀ p ∈ ps, p.1 = cx) : polygonShoelace ps = 0 := by
  unfold polygonShoelace
  simp only []
  rw [foldl_add_eq_sum, zero_add]
  have hx : ∀ i : ℕ, (ps.getD i pt0).1 = if i < ps.length then cx else 0 := by
    intro i
    rcases lt_or_ge i ps.length with hi | hi
    · rw [if_pos hi]
      exact h _ (getD_mem hi)
    · rw [if_neg (by omega), List.getD_eq_getElem?_getD,
        List.getElem?_eq_none (by omega)]
      rfl
  by_cases hn : ps.length = 0
  · rw [hn]
    simp
  · have hcong : (List.range ps.length).map (fun i =>
        (ps.getD (if i = 0 then ps.length - 1 else i - 1) pt0).1
          * (ps.getD i pt0).2
        - (ps.getD i pt0).1
          * (ps.getD (if i = 0 then ps.length - 1 else i - 1) pt0).2)
        = (List.range ps.length).map (fun i =>
          cx * (ps.getD i pt0).2
          - cx * (ps.getD (if i = 0 then ps.length - 1 else i - 1) pt0).2) := by
      apply List.map_congr_left
      intro i hi
      have hilt : i < ps.length := List.mem_range.mp hi
      have hjlt : (if i = 0 then ps.length - 1 else i - 1) < ps.length := by
        split <;> omega
      rw [hx i, hx (if i = 0 then ps.length - 1 else i - 1),
        if_pos hilt, if_pos hjlt]
    rw [hcong]
    rw [list_sum_map_sub (fun i => cx * (ps.getD i pt0).2)
      (fun i => cx * (ps.getD (if i = 0 then ps.length - 1 else i - 1) pt0).2)]
    have hperm : ((List.range ps.length).map (fun i =>
        cx * (ps.getD (if i = 0 then ps.length - 1 else i - 1) pt0).2)).sum
        = ((List.range ps.length).map (fun i =>
          cx * (ps.getD i pt0).2)).sum := by
      have h1 : (List.range ps.length).map (fun i =>
          cx * (ps.getD (if i = 0 then ps.length - 1 else i - 1) pt0).2)
          = (((List.range ps.length).map
            (fun i => if i = 0 then ps.length - 1 else i - 1)).map
            (fun i => cx * (ps.getD i pt0).2)) := by
        rw [List.map_map]
        rfl
      rw [h1]
      exact ((range_map_pred_perm ps.length).map
        (fun i => cx * (ps.getD i pt0).2)).sum_eq
    rw [hperm]
    ring

/-- If all y coordinates coincide, the shoelace sum telescopes to zero. -/
lemma polygonShoelace_const_y {ps : List Point} {cy : ℝ}
    (h : ∀ p ∈ ps, p.2 = cy) : polygonShoelace ps = 0 := by
  unfold polygonShoelace
  simp only []
  rw [foldl_add_eq_sum, zero_add]
  have hy : ∀ i : ℕ, (ps.getD i pt0).2 = if i < ps.length then cy else 0 := by
    intro i
    rcases lt_or_ge i ps.length with hi | hi
    · rw [if_pos hi]
      exact h _ (getD_mem hi)
    · rw [if_neg (by omega), List.getD_eq_getElem?_getD,
        List.getElem?_eq_none (by omega)]
      rfl
  by_cases hn : ps.length = 0
  · rw [hn]
    simp
  · have hcong : (List.range ps.length).map (fun i =>
        (ps.getD (if i = 0 then ps.length - 1 else i - 1) pt0).1
          * (ps.getD i pt0).2
        - (ps.getD i pt0).1
          * (ps.getD (if i = 0 then ps.length - 1 else i - 1) pt0).2)
        = (List.range ps.length).map (fun i =>
          cy * (ps.getD (if i = 0 then ps.length - 1 else i - 1) pt0).1
          - cy * (ps.getD i pt0).1) := by
      apply List.map_congr_left
      intro i hi
      have hilt : i < ps.length := List.mem_range.mp hi
      have hjlt : (if i = 0 then ps.length - 1 else i - 1) < ps.length := by
        split <;> omega
      rw [hy i, hy (if i = 0 then ps.length - 1 else i - 1),
        if_pos hilt, if_pos hjlt]
      ring
    rw [hcong]
    rw [list_sum_map_sub
      (fun i => cy * (ps.getD (if i = 0 then ps.length - 1 else i - 1) pt0).1)
      (fun i => cy * (ps.getD i pt0).1)]
    have hperm : ((List.range ps.length).map (fun i =>
        cy * (ps.getD (if i = 0 then ps.length - 1 else i - 1) pt0).1)).sum
        = ((List.range ps.length).map (fun i =>
          cy * (ps.getD i pt0).1)).sum := by
      have h1 : (List.range ps.length).map (fun i =>
          cy * (ps.getD (if i = 0 then ps.length - 1 else i - 1) pt0).1)
          = (((List.range ps.length).map
            (fun i => if i = 0 then ps.length - 1 else i - 1)).map
            (fun i => cy * (ps.getD i pt0).1)) := by
        rw [List.map_map]
        rfl
      rw [h1]
      exact ((range_map_pred_perm ps.length).map
        (fun i => cy * (ps.getD i pt0).1)).sum_eq
    rw [hperm]
    ring

/-- A strictly positive simplified-polygon area forces strictly positive
raw bounding-box width and height. -/
lemma area_pos_of_conf {pts raw : List Point}
    (hsub : pts.Sublist raw) (hne : raw ≠ [])
    (hA : 0 < polygonArea pts) :
    0 < (bbox raw).w ∧ 0 < (bbox raw).h := by
  constructor
  · by_contra hw
    push_neg at hw
    have hminmax : (bbox raw).maxX ≤ (bbox raw).minX := by
      have : (bbox raw).w = (bbox raw).maxX - (bbox raw).minX := rfl
      rw [this] at hw
      linarith
    have hallx : ∀ p ∈ raw, p.1 = (bbox raw).minX := by
      intro p hp
      have h1 : (bbox raw).minX ≤ p.1 :=
        listMin_le (List.mem_map_of_mem Prod.fst hp)
      have h2 : p.1 ≤ (bbox raw).maxX :=
        le_listMax (List.mem_map_of_mem Prod.fst hp)
      linarith
    have hzero : polygonShoelace pts = 0 :=
      polygonShoelace_const_x (fun p hp => hallx p (hsub.subset hp))
    rw [polygonArea, hzero] at hA
    simp at hA
  · by_contra hh
    push_neg at hh
    have hminmax : (bbox raw).maxY ≤ (bbox raw).minY := by
      have : (bbox raw).h = (bbox raw).maxY - (bbox raw).minY := rfl
      rw [this] at hh
      linarith
    have hally : ∀ p ∈ raw, p.2 = (bbox raw).minY := by
      intro p hp
      have h1 : (bbox raw).minY ≤ p.2 :=
        listMin_le (List.mem_map_of_mem Prod.snd hp)
      have h2 : p.2 ≤ (bbox raw).maxY :=
        le_listMax (List.mem_map_of_mem Prod.snd hp)
      linarith
    have hzero : polygonShoelace pts = 0 :=
      polygonShoelace_const_y (fun p hp => hally p (hsub.subset hp))
    rw [polygonArea, hzero] at hA
    simp at hA

lemma classifyRectangle_invariant {pts raw : List Point} {P : ℝ} {c : String}
    (hsub : pts.Sublist raw) (hne : raw ≠ [])
    (hconf : 0.4 < (classifyRectangle pts raw P (polygonArea pts)
      (bbox raw).w (bbox raw).h c).confidence) :
    shapeInvariant (classifyRectangle pts raw P (polygonArea pts)
      (bbox raw).w (bbox raw).h c).shape := by
  unfold classifyRectangle at hconf ⊢
  simp only [] at hconf ⊢
  set A := polygonArea pts with hA
  set w := (bbox raw).w with hw
  set h := (bbox raw).h with hh
  set conf := if A / max 1 (w * h) < 0.6 ∨ circularityOf P A > 0.9 then 0
    else A / max 1 (w * h) * 0.8 + (1 - circularityOf P A) * 0.2 with hcdef
  have hconf' : (0.4 : ℝ) < conf := by
    by_cases hasp : |w / (if h = 0 then 1 else h) - 1| < 0.2
    · rw [if_pos hasp] at hconf
      exact hconf
    · rw [if_neg hasp] at hconf
      exact hconf
  have hnz : ¬ (A / max 1 (w * h) < 0.6 ∨ circularityOf P A > 0.9) := by
    intro habs
    rw [hcdef, if_pos habs] at hconf'
    norm_num at hconf'
  push_neg at hnz
  have hr06 : (0.6 : ℝ) ≤ A / max 1 (w * h) := hnz.1
  have hMpos : (0 : ℝ) < max 1 (w * h) := lt_of_lt_of_le one_pos (le_max_left _ _)
  have hApos : 0 < A := by
    have h1 : 0.6 * max 1 (w * h) ≤ A := by
      rw [le_div_iff hMpos] at hr06
      linarith
    nlinarith
  obtain ⟨hwpos, hhpos⟩ := area_pos_of_conf hsub hne hApos
  by_cases hasp : |w / (if h = 0 then 1 else h) - 1| < 0.2
  · rw [if_pos hasp]
    exact ⟨lt_min hwpos hhpos, lt_min hwpos hhpos⟩
  · rw [if_neg hasp]
    exact ⟨hwpos, hhpos⟩

lemma classifyCircle_invariant (pts raw : List Point) (P A w h : ℝ)
    (closed : Bool) (c : String)
    (hconf : 0.4 < (classifyCircle pts raw P A w h closed c).confidence) :
    shapeInvariant (classifyCircle pts raw P A w h closed c).shape := by
  unfold classifyCircle at hconf ⊢
  by_cases hgate : closed = false ∨ min w h < 10
  · rw [if_pos hgate] at hconf
    norm_num at hconf
  · rw [if_neg hgate] at hconf ⊢
    push_neg at hgate
    have h10 : (10 : ℝ) ≤ min w h := hgate.2
    simp only [] at hconf ⊢
    cases hfit : fitCircle pts with
    | some fit =>
      simp only [] at hconf ⊢
      by_cases hgood : fit.r > 6 ∧ fit.stdRel < 0.15
      · rw [if_pos hgood]
        show 0 < fit.r
        linarith [hgood.1]
      · rw [if_neg hgood]
        show (0:ℝ) < min w h / 2
        linarith
    | none =>
      simp only [] at hconf ⊢
      show (0:ℝ) < min w h / 2
      linarith

lemma classifyTriangle_invariant (pts : List Point) (P A : ℝ) (c : String)
    (hconf : 0.4 < (classifyTriangle pts P A c).confidence) :
    shapeInvariant (classifyTriangle pts P A c).shape := by
  unfold classifyTriangle at hconf ⊢
  simp only [] at hconf ⊢
  set conf := if 3 ≤ countCorners pts 35 ∧ countCorners pts 35 ≤ 5 ∧
      circularityOf P A < 0.85
    then min 0.8 (((countCorners pts 35 : ℝ) - 2) * 0.2)
      + (1 - circularityOf P A) * 0.3
    else 0 with hcdef
  by_cases hlow : conf < 0.3
  · rw [if_pos hlow] at hconf
    norm_num at hconf
  · rw [if_neg hlow] at hconf ⊢
    by_cases hlen : (bestTriple pts).2.length = 3
    · rw [if_pos hlen]
      trivial
    · rw [if_neg hlen] at hconf
      norm_num at hconf

/-- C8: for every non-empty input stroke `recognize` produces exactly one
shape, and it satisfies the spec's invariants: positive rectangle width and
height, positive circle radius, non-empty freeform point list. -/
theorem C8_output_invariants (s : List Point) (c : String) (hs : s ≠ []) :
    shapeInvariant (recognize s c) := by
  unfold recognize
  by_cases hlt : (simplifiedOf s).length < 3
  · rw [if_pos hlt]
    exact rawClosedOf_ne_nil hs
  · rw [if_neg hlt]
    by_cases hsur : 0 < (survivorsOf s c).length
    · rw [if_pos hsur]
      have hne : survivorsOf s c ≠ [] := by
        intro habs
        rw [habs] at hsur
        simp at hsur
      obtain ⟨l1, cand, l2, hdecomp, hhead, _, _⟩ :=
        sortDesc_headI_spec (survivorsOf s c) hne
      rw [hhead]
      have hmem : cand ∈ survivorsOf s c := by
        rw [hdecomp]
        simp
      obtain ⟨hcand, hconf⟩ := mem_survivors_iff.mp hmem
      unfold candidatesOf at hcand
      simp only [List.mem_cons, List.not_mem_nil, or_false] at hcand
      have hsub : (simplifiedOf s).Sublist (rawClosedOf s) := by
        unfold simplifiedOf
        exact rdp_sublist _ _
      have hrne : rawClosedOf s ≠ [] := rawClosedOf_ne_nil hs
      rcases hcand with hcand | hcand | hcand
      · rw [hcand]
        rw [hcand] at hconf
        exact classifyRectangle_invariant hsub hrne hconf
      · rw [hcand]
        rw [hcand] at hconf
        exact classifyCircle_invariant _ _ _ _ _ _ _ _ hconf
      · rw [hcand]
        rw [hcand] at hconf
        exact classifyTriangle_invariant _ _ _ _ hconf
    · rw [if_neg hsur]
      show simplifiedOf s ≠ []
      intro habs
      rw [habs] at hlt
      simp at hlt

/-- Witness for C8 at the one-point stroke `[(1, 2)]`. -/
theorem C8_witness :
    ([((1:ℝ), (2:ℝ))] : List Point) ≠ [] ∧
      shapeInvariant (recognize [((1:ℝ), (2:ℝ))] col) :=
  ⟨by simp, C8_output_invariants [((1:ℝ), (2:ℝ))] col (by simp)⟩

/-! ## Claim C2: totality

An error-instrumented copy of the pipeline: every division checks its
divisor (`divG` returns `none` on a zero divisor, where JavaScript would
produce `NaN`/`Infinity`), `bboxE` rejects the empty stroke (where
JavaScript's `Math.min()` would produce `Infinity`), and the recursive
simplifier runs on explicit fuel.  C2 asserts that on every non-empty
stroke this instrumented pipeline succeeds - with fuel linear in the input
length - and returns exactly the result of the pure embedding: no division
guard fails and the recursion terminates. -/

/-- Division that fails on a zero divisor. -/
def divG (x y : ℝ) : Option ℝ := if y = 0 then none else some (x / y)

/-- `bbox`, failing on the empty list (`Math.min()` of no arguments). -/
def bboxE (points : List Point) : Option BBox :=
  if points = [] then none else some (bbox points)

/-- `perpDist` with its guarded division instrumented. -/
def perpDistE (s e p : Point) : Option ℝ :=
  divG (perpNum s e p) (perpDen s e)

/-- `rdpDistance` with instrumented divisions. -/
def rdpDistanceE (points : List Point) : Option ℝ :=
  if points.length < 3 then some 0
  else
    (interiorPts points).foldlM
      (fun m p => do
        let d ← perpDistE points.headI points.getLastI p
        pure (max m d))
      0

/-- The `(maxD, idx)` scan of `rdp` with instrumented divisions. -/
def rdpScanE (points : List Point) : Option (ℝ × ℤ) :=
  (interiorIdx points).foldlM
    (fun acc ip => do
      let d ← perpDistE points.headI points.getLastI ip.2
      pure (if d > acc.1 then (d, (ip.1 : ℤ)) else acc))
    (-1, -1)

/-- `rdp` on explicit fuel with instrumented divisions. -/
def rdpE : ℕ → List Point → ℝ → Option (List Point)
  | 0, _, _ => none
  | fuel + 1, points, epsilon =>
    if points.length ≤ 2 then some points
    else do
      let scan ← rdpScanE points
      let dist ← rdpDistanceE points
      if dist < epsilon then pure [points.headI, points.getLastI]
      else if scan.1 > epsilon ∧ scan.2 > 0 then do
        let left ← rdpE fuel (points.take (scan.2.toNat + 1)) epsilon
        let right ← rdpE fuel (points.drop scan.2.toNat) epsilon
        pure (left.dropLast ++ right)
      else pure [points.headI, points.getLastI]

/-- `toDeg` with its division by π instrumented. -/
def toDegE (rad : ℝ) : Option ℝ := divG (rad * 180) Real.pi

/-- `cornerAt` with instrumented divisions. -/
def cornerAtE (poly : List Point) (angleThreshDeg : ℝ) (i : ℕ) :
    Option ℕ := do
  let n := poly.length
  let p0 := poly.getD ((i + n - 1) % n) pt0
  let p1 := poly.getD i pt0
  let p2 := poly.getD ((i + 1) % n) pt0
  let v1x := p0.1 - p1.1
  let v1y := p0.2 - p1.2
  let v2x := p2.1 - p1.1
  let v2y := p2.2 - p1.2
  let dot := v1x * v2x + v1y * v2y
  let mag1 := if hypot v1x v1y = 0 then 1 else hypot v1x v1y
  let mag2 := if hypot v2x v2y = 0 then 1 else hypot v2x v2y
  let cos ← divG dot (mag1 * mag2)
  let deg ← toDegE (Real.arccos (max (-1) (min 1 cos)))
  pure (if deg < 180 - angleThreshDeg ∧ deg > angleThreshDeg then 1 else 0)

/-- `countCorners` with instrumented divisions. -/
def countCornersE (poly : List Point) (angleThreshDeg : ℝ) : Option ℕ :=
  if poly.length < 3 then some 0
  else
    (List.range poly.length).foldlM
      (fun corners i => do
        let k ← cornerAtE poly angleThreshDeg i
        pure (corners + k))
      0

/-- `polygonArea` with its halving division instrumented. -/
def polygonAreaE (points : List Point) : Option ℝ :=
  divG |polygonShoelace points| 2

/-- `fitCircle` with instrumented divisions.  The outer `Option` is the
error channel; the inner one is the source's `null` result. -/
def fitCircleE (points : List Point) : Option (Option CircleFit) :=
  if points.length < 6 then some none
  else do
    let _mx ← divG (points.map Prod.fst).sum points.length
    let _my ← divG (points.map Prod.snd).sum points.length
    if |fitDen points| < 1e-6 then pure none
    else do
      let uc ← divG (momentSum points 0 2 * (momentSum points 3 0
          + momentSum points 1 2)
        - momentSum points 1 1 * (momentSum points 0 3
          + momentSum points 2 1)) (fitDen points)
      let vc ← divG (momentSum points 2 0 * (momentSum points 0 3
          + momentSum points 2 1)
        - momentSum points 1 1 * (momentSum points 3 0
          + momentSum points 1 2)) (fitDen points)
      let cx := meanX points + uc
      let cy := meanY points + vc
      let rs := points.map (fun p => hypot (p.1 - cx) (p.2 - cy))
      let r ← divG rs.sum points.length
      let variance ← divG (rs.map (fun v => (v - r) * (v - r))).sum
        points.length
      let stdRel ← divG (Real.sqrt variance) (if r = 0 then 1 else r)
      pure (some ⟨cx, cy, r, stdRel⟩)

/-- `classifyRectangle` with instrumented divisions. -/
def classifyRectangleE (pts rawClosed : List Point) (P A w h : ℝ)
    (color : String) : Option ShapeCandidate := do
  let rectangularity ← divG A (max 1 (w * h))
  let circularity ← divG (4 * Real.pi * A) (perimGuard P * perimGuard P)
  let confidence :=
    if rectangularity < 0.6 ∨ circularity > 0.9 then 0
    else rectangularity * 0.8 + (1 - circularity) * 0.2
  let b := bbox rawClosed
  let aspect ← divG w (if h = 0 then 1 else h)
  if |aspect - 1| < 0.2 then do
    let w2 ← divG w 2
    let h2 ← divG h 2
    let s := min w h
    let s2 ← divG s 2
    pure ⟨.rect (b.minX + w2 - s2) (b.minY + h2 - s2) s s color, confidence⟩
  else pure ⟨.rect b.minX b.minY w h color, confidence⟩

/-- `classifyCircle` with instrumented divisions. -/
def classifyCircleE (pts rawClosed : List Point) (P A w h : ℝ)
    (closed : Bool) (color : String) : Option ShapeCandidate :=
  if closed = false ∨ min w h < 10 then pure ⟨.free pts color, 0⟩
  else do
    let circularity ← divG (4 * Real.pi * A) (perimGuard P * perimGuard P)
    let confidence := if circularity < 0.75 then 0 else circularity * 0.9
    let b := bbox rawClosed
    let w2 ← divG w 2
    let h2 ← divG h 2
    let m2 ← divG (min w h) 2
    let fallback : ShapeCandidate :=
      ⟨.circle (b.minX + w2) (b.minY + h2) m2 color, confidence⟩
    let fit ← fitCircleE pts
    match fit with
    | some fit =>
        if fit.r > 6 ∧ fit.stdRel < 0.15 then
          pure ⟨.circle fit.cx fit.cy fit.r color, confidence + 0.1⟩
        else pure fallback
    | none => pure fallback

/-- `classifyTriangle` with instrumented divisions. -/
def classifyTriangleE (pts : List Point) (P A : ℝ) (color : String) :
    Option ShapeCandidate := do
  let corners ← countCornersE pts 35
  let circularity ← divG (4 * Real.pi * A) (perimGuard P * perimGuard P)
  let confidence :=
    if 3 ≤ corners ∧ corners ≤ 5 ∧ circularity < 0.85
    then min 0.8 (((corners : ℝ) - 2) * 0.2) + (1 - circularity) * 0.3
    else 0
  if confidence < 0.3 then pure ⟨.free pts color, 0⟩
  else
    let best := (bestTriple pts).2
    if best.length = 3 then pure ⟨.triangle best color, confidence⟩
    else pure ⟨.free pts color, 0⟩

/-- `recognize` with instrumented divisions, empty-bbox check, and fuel for
the recursive simplifier. -/
def recognizeE (pointsRaw : List Point) (color : String) :
    Option DrawnShape := do
  let rawClosed := ensureClosed pointsRaw 8
  let b ← bboxE rawClosed
  let pts ← rdpE (rawClosed.length + 1) rawClosed
    (max 3 (hypot b.w b.h * 0.01))
  if pts.length < 3 then pure (.free rawClosed color)
  else do
    let P := polygonPerimeter pts
    let A ← polygonAreaE pts
    let closed := pathClosed pointsRaw
    let cr ← classifyRectangleE pts rawClosed P A b.w b.h color
    let cc ← classifyCircleE pts rawClosed P A b.w b.h closed color
    let ct ← classifyTriangleE pts P A color
    let candidates := [cr, cc, ct].filter fun c => decide (c.confidence > 0.4)
    if 0 < candidates.length then pure (sortDesc candidates).headI.shape
    else pure (.free pts color)

lemma divG_eq {x y : ℝ} (h : y ≠ 0) : divG x y = some (x / y) := by
  unfold divG
  rw [if_neg h]

lemma guard1_ne_zero (v : ℝ) : (if v = 0 then (1:ℝ) else v) ≠ 0 := by
  by_cases h : v = 0
  · rw [if_pos h]
    norm_num
  · rw [if_neg h]
    exact h

lemma perimGuard_ne_zero (P : ℝ) : perimGuard P ≠ 0 := guard1_ne_zero P

lemma perpDen_ne_zero (s e : Point) : perpDen s e ≠ 0 := guard1_ne_zero _

lemma perpDistE_eq (s e p : Point) :
    perpDistE s e p = some (perpDist s e p) := by
  unfold perpDistE perpDist
  exact divG_eq (perpDen_ne_zero s e)

lemma foldlM_option {α β : Type} (stepE : β → α → Option β)
    (step : β → α → β) (l : List α)
    (hstep : ∀ b a, a ∈ l → stepE b a = some (step b a)) :
    ∀ b, l.foldlM stepE b = some (l.foldl step b) := by
  induction l with
  | nil => intro b; rfl
  | cons x t ih =>
    intro b
    rw [List.foldlM_cons, hstep b x (List.mem_cons_self x t)]
    simp only [Option.bind_eq_bind, Option.some_bind]
    rw [List.foldl_cons]
    exact ih (fun b' a ha => hstep b' a (List.mem_cons_of_mem x ha)) (step b x)

lemma rdpScanE_eq (ps : List Point) : rdpScanE ps = some (rdpScan ps) := by
  unfold rdpScanE rdpScan
  apply foldlM_option
  intro b a _
  rw [perpDistE_eq]
  rfl

lemma rdpDistanceE_eq (ps : List Point) :
    rdpDistanceE ps = some (rdpDistance ps) := by
  unfold rdpDistanceE rdpDistance
  by_cases h3 : ps.length < 3
  · rw [if_pos h3, if_pos h3]
  · rw [if_neg h3, if_neg h3]
    apply foldlM_option
    intro b a _
    rw [perpDistE_eq]
    rfl

lemma rdpE_eq : ∀ (fuel : ℕ) (ps : List Point) (ε : ℝ),
    ps.length < fuel → rdpE fuel ps ε = some (rdp ps ε) := by
  intro fuel
  induction fuel with
  | zero => intro ps ε h; omega
  | succ f ih =>
    intro ps ε h
    show (if ps.length ≤ 2 then some ps else _) = _
    by_cases h2 : ps.length ≤ 2
    · rw [if_pos h2, rdp_short h2]
    · rw [if_neg h2]
      rw [rdpScanE_eq]
      simp only [Option.bind_eq_bind, Option.some_bind]
      rw [rdpDistanceE_eq]
      simp only [Option.bind_eq_bind, Option.some_bind]
      by_cases hd : rdpDistance ps < ε
      · rw [if_pos hd, rdp_eq_of_lt h2 hd]
        rfl
      · rw [if_neg hd]
        by_cases hbr : (rdpScan ps).1 > ε ∧ (rdpScan ps).2 > 0
        · rw [if_pos hbr]
          rcases rdpScan_snd_bounds ps with hneg | ⟨h1, hb⟩
          · exfalso
            rw [hneg] at hbr
            exact absurd hbr.2 (by norm_num)
          · have hltake : (ps.take ((rdpScan ps).2.toNat + 1)).length < f := by
              rw [List.length_take]
              omega
            have hldrop : (ps.drop (rdpScan ps).2.toNat).length < f := by
              rw [List.length_drop]
              omega
            rw [ih _ ε hltake]
            simp only [Option.bind_eq_bind, Option.some_bind]
            rw [ih _ ε hldrop]
            simp only [Option.bind_eq_bind, Option.some_bind]
            rw [rdp_eq_branch h2 hd hbr]
            rfl
        · rw [if_neg hbr, rdp_eq_else h2 hd hbr]
          rfl

lemma toDegE_eq (rad : ℝ) : toDegE rad = some (toDeg rad) := by
  unfold toDegE toDeg
  exact divG_eq Real.pi_ne_zero

lemma cornerAtE_eq (poly : List Point) (t : ℝ) (i : ℕ) :
    cornerAtE poly t i = some (cornerAt poly t i) := by
  unfold cornerAtE cornerAt
  simp only []
  rw [divG_eq (mul_ne_zero (guard1_ne_zero _) (guard1_ne_zero _))]
  simp only [Option.bind_eq_bind, Option.some_bind]
  rw [toDegE_eq]
  rfl

lemma countCornersE_eq (poly : List Point) (t : ℝ) :
    countCornersE poly t = some (countCorners poly t) := by
  unfold countCornersE countCorners
  by_cases h3 : poly.length < 3
  · rw [if_pos h3, if_pos h3]
  · rw [if_neg h3, if_neg h3]
    apply foldlM_option
    intro b a _
    rw [cornerAtE_eq]
    rfl

lemma polygonAreaE_eq (ps : List Point) :
    polygonAreaE ps = some (polygonArea ps) := by
  unfold polygonAreaE polygonArea
  exact divG_eq (by norm_num)

lemma fitCircleE_eq (ps : List Point) : fitCircleE ps = some (fitCircle ps) := by
  unfold fitCircleE fitCircle
  by_cases h6 : ps.length < 6
  · rw [if_pos h6, if_pos h6]
  · rw [if_neg h6, if_neg h6]
    have hn : ((ps.length : ℝ)) ≠ 0 := by
      exact_mod_cast (by omega : ps.length ≠ 0)
    rw [divG_eq hn]
    simp only [Option.bind_eq_bind, Option.some_bind]
    rw [divG_eq hn]
    simp only [Option.bind_eq_bind, Option.some_bind]
    by_cases hden : |fitDen ps| < 1e-6
    · rw [if_pos hden, if_pos hden]
      rfl
    · rw [if_neg hden, if_neg hden]
      have hdne : fitDen ps ≠ 0 := by
        intro habs
        rw [habs] at hden
        norm_num at hden
      rw [divG_eq hdne]
      simp only [Option.bind_eq_bind, Option.some_bind]
      rw [divG_eq hdne]
      simp only [Option.bind_eq_bind, Option.some_bind]
      rw [divG_eq hn]
      simp only [Option.bind_eq_bind, Option.some_bind]
      rw [divG_eq hn]
      simp only [Option.bind_eq_bind, Option.some_bind]
      rw [divG_eq (guard1_ne_zero _)]
      simp only [Option.bind_eq_bind, Option.some_bind]
      rfl

lemma classifyRectangleE_eq (pts raw : List Point) (P A w h : ℝ)
    (c : String) :
    classifyRectangleE pts raw P A w h c
      = some (classifyRectangle pts raw P A w h c) := by
  unfold classifyRectangleE classifyRectangle circularityOf
  rw [divG_eq (by positivity : max 1 (w * h) ≠ 0)]
  simp only [Option.bind_eq_bind, Option.some_bind]
  rw [divG_eq (mul_ne_zero (perimGuard_ne_zero P) (perimGuard_ne_zero P))]
  simp only [Option.bind_eq_bind, Option.some_bind]
  rw [divG_eq (guard1_ne_zero h)]
  simp only [Option.bind_eq_bind, Option.some_bind]
  by_cases hasp : |w / (if h = 0 then 1 else h) - 1| < 0.2
  · rw [if_pos hasp, if_pos hasp]
    rw [divG_eq (by norm_num : (2:ℝ) ≠ 0)]
    simp only [Option.bind_eq_bind, Option.some_bind]
    rw [divG_eq (by norm_num : (2:ℝ) ≠ 0)]
    simp only [Option.bind_eq_bind, Option.some_bind]
    rw [divG_eq (by norm_num : (2:ℝ) ≠ 0)]
    rfl
  · rw [if_neg hasp, if_neg hasp]
    rfl

lemma classifyCircleE_eq (pts raw : List Point) (P A w h : ℝ)
    (closed : Bool) (c : String) :
    classifyCircleE pts raw P A w h closed c
      = some (classifyCircle pts raw P A w h closed c) := by
  unfold classifyCircleE classifyCircle circularityOf
  by_cases hgate : closed = false ∨ min w h < 10
  · rw [if_pos hgate, if_pos hgate]
    rfl
  · rw [if_neg hgate, if_neg hgate]
    rw [divG_eq (mul_ne_zero (perimGuard_ne_zero P) (perimGuard_ne_zero P))]
    simp only [Option.bind_eq_bind, Option.some_bind]
    rw [divG_eq (by norm_num : (2:ℝ) ≠ 0)]
    simp only [Option.bind_eq_bind, Option.some_bind]
    rw [divG_eq (by norm_num : (2:ℝ) ≠ 0)]
    simp only [Option.bind_eq_bind, Option.some_bind]
    rw [divG_eq (by norm_num : (2:ℝ) ≠ 0)]
    simp only [Option.bind_eq_bind, Option.some_bind]
    rw [fitCircleE_eq]
    simp only [Option.bind_eq_bind, Option.some_bind]
    cases hfit : fitCircle pts with
    | some fit =>
      simp only []
      by_cases hgood : fit.r > 6 ∧ fit.stdRel < 0.15
      · rw [if_pos hgood, if_pos hgood]
        rfl
      · rw [if_neg hgood, if_neg hgood]
        rfl
    | none =>
      simp only []
      rfl

lemma classifyTriangleE_eq (pts : List Point) (P A : ℝ) (c : String) :
    classifyTriangleE pts P A c = some (classifyTriangle pts P A c) := by
  unfold classifyTriangleE classifyTriangle circularityOf
  rw [countCornersE_eq]
  simp only [Option.bind_eq_bind, Option.some_bind]
  rw [divG_eq (mul_ne_zero (perimGuard_ne_zero P) (perimGuard_ne_zero P))]
  simp only [Option.bind_eq_bind, Option.some_bind]
  by_cases hlow : (if 3 ≤ countCorners pts 35 ∧ countCorners pts 35 ≤ 5 ∧
      4 * Real.pi * A / (perimGuard P * perimGuard P) < 0.85
    then min 0.8 (((countCorners pts 35 : ℝ) - 2) * 0.2)
      + (1 - 4 * Real.pi * A / (perimGuard P * perimGuard P)) * 0.3
    else 0) < 0.3
  · rw [if_pos hlow, if_pos hlow]
    rfl
  · rw [if_neg hlow, if_neg hlow]
    by_cases hlen : (bestTriple pts).2.length = 3
    · rw [if_pos hlen, if_pos hlen]
      rfl
    · rw [if_neg hlen, if_neg hlen]
      rfl

/-- C2: on every non-empty stroke, the error-instrumented pipeline succeeds
and agrees with the pure embedding - every division is guarded so no
division-by-zero branch is reachable, and the recursive RDP simplification
terminates within fuel linear in its input (each recursive call receives a
strictly shorter slice).  The second conjunct states the fuel bound for
`rdp` on every input. -/
theorem C2_recognize_total (s : List Point) (c : String) (hs : s ≠ []) :
    recognizeE s c = some (recognize s c) ∧
    ∀ (ps : List Point) (ε : ℝ), rdpE (ps.length + 1) ps ε
      = some (rdp ps ε) := by
  refine ⟨?_, fun ps ε => rdpE_eq (ps.length + 1) ps ε (by omega)⟩
  unfold recognizeE
  simp only []
  have hrne : ensureClosed s 8 ≠ [] := rawClosedOf_ne_nil hs
  rw [show bboxE (ensureClosed s 8) = some (bbox (ensureClosed s 8)) from by
    unfold bboxE
    rw [if_neg hrne]]
  simp only [Option.bind_eq_bind, Option.some_bind]
  have hrdp := rdpE_eq ((ensureClosed s 8).length + 1) (ensureClosed s 8)
    (max 3 (hypot (bbox (ensureClosed s 8)).w (bbox (ensureClosed s 8)).h
      * 0.01)) (by omega)
  rw [hrdp]
  simp only [Option.bind_eq_bind, Option.some_bind]
  show (if (simplifiedOf s).length < 3
      then some (DrawnShape.free (rawClosedOf s) c)
      else _) = _
  unfold recognize
  by_cases hlt : (simplifiedOf s).length < 3
  · rw [if_pos hlt, if_pos hlt]
  · rw [if_neg hlt, if_neg hlt]
    rw [polygonAreaE_eq]
    simp only [Option.bind_eq_bind, Option.some_bind]
    rw [classifyRectangleE_eq]
    simp only [Option.bind_eq_bind, Option.some_bind]
    rw [classifyCircleE_eq]
    simp only [Option.bind_eq_bind, Option.some_bind]
    rw [classifyTriangleE_eq]
    simp only [Option.bind_eq_bind, Option.some_bind]
    show (if 0 < (survivorsOf s c).length
        then some (sortDesc (survivorsOf s c)).headI.shape
        else some (DrawnShape.free (simplifiedOf s) c)) = _
    by_cases hsur : 0 < (survivorsOf s c).length
    · rw [if_pos hsur, if_pos hsur]
    · rw [if_neg hsur, if_neg hsur]

/-- Witness for C2 at the one-point stroke `[(0, 3)]`. -/
theorem C2_witness :
    ([((0:ℝ), (3:ℝ))] : List Point) ≠ [] ∧
      recognizeE [((0:ℝ), (3:ℝ))] col
        = some (recognize [((0:ℝ), (3:ℝ))] col) :=
  ⟨by simp, (C2_recognize_total [((0:ℝ), (3:ℝ))] col (by simp)).1⟩

end Geometry
